import Mathlib

namespace Snake

/-- Three-component vector, modelling three.js `Vector3` with real
coordinates. -/
@[ext]
structure Vec3 where
  x : ℝ
  y : ℝ
  z : ℝ

namespace Vec3

/-- `Vector3.add`. -/
def add (a b : Vec3) : Vec3 := ⟨a.x + b.x, a.y + b.y, a.z + b.z⟩

/-- `Vector3.sub`. -/
def sub (a b : Vec3) : Vec3 := ⟨a.x - b.x, a.y - b.y, a.z - b.z⟩

/-- `Vector3.multiplyScalar`. -/
def smul (a : Vec3) (c : ℝ) : Vec3 := ⟨a.x * c, a.y * c, a.z * c⟩

/-- `Vector3.dot`. -/
def dot (a b : Vec3) : ℝ := a.x * b.x + a.y * b.y + a.z * b.z

/-- `Vector3.crossVectors`. -/
def cross (a b : Vec3) : Vec3 :=
  ⟨a.y * b.z - a.z * b.y, a.z * b.x - a.x * b.z, a.x * b.y - a.y * b.x⟩

/-- `Vector3.lengthSq`. -/
def lengthSq (a : Vec3) : ℝ := a.x * a.x + a.y * a.y + a.z * a.z

/-- `Vector3.length`. -/
noncomputable def length (a : Vec3) : ℝ := Real.sqrt a.lengthSq

/-- `Vector3.normalize`: three.js divides by `length() || 1`, so the zero
vector is left unchanged. -/
noncomputable def normalize (a : Vec3) : Vec3 :=
  a.smul (1 / (if a.length = 0 then 1 else a.length))

/-- `Vector3.addScaledVector`. -/
def addScaledVector (a b : Vec3) (c : ℝ) : Vec3 := a.add (b.smul c)

/-- `Vector3.applyAxisAngle`: three.js builds the quaternion
`(axis·sin(θ/2), cos(θ/2))` (`Quaternion.setFromAxisAngle`) and applies it
with `Vector3.applyQuaternion`, i.e. `v + 2w(q×v) + 2(q×(q×v))` where `q`
is the quaternion's vector part and `w` its scalar part. -/
noncomputable def applyAxisAngle (v axis : Vec3) (angle : ℝ) : Vec3 :=
  let s := Real.sin (angle / 2)
  let w := Real.cos (angle / 2)
  let q := axis.smul s
  let t := (q.cross v).smul 2
  (v.add (t.smul w)).add (q.cross t)

/-- `Vector3.angleTo`: `acos` of the clamped normalized dot product, with a
`π/2` fallback for zero denominators. -/
noncomputable def angleTo (a b : Vec3) : ℝ :=
  let denominator := Real.sqrt (a.lengthSq * b.lengthSq)
  if denominator = 0 then Real.pi / 2
  else Real.arccos (max (-1) (min 1 (a.dot b / denominator)))

end Vec3

/-! ### Turn-rate limiting (`limitTurnRate`, src lines 41-61)

`limitTurnRate` rotates `current` toward `desired` by at most `maxRate`
radians using an axis-angle rotation about an axis perpendicular to both
(with a fallback perpendicular axis when the cross product degenerates);
it never blends linearly. -/

/-- The rotation axis chosen by `limitTurnRate`: the normalized cross
product of `current` and `desired`, or, when that is degenerate
(`lengthSq < 0.0001`), the normalized cross product of `current` with a
world axis not parallel to it. -/
noncomputable def turnAxis (current desired : Vec3) : Vec3 :=
  let axis0 := current.cross desired
  if axis0.lengthSq < 0.0001 then
    let g : Vec3 := if |current.y| > 0.9 then ⟨1, 0, 0⟩ else ⟨0, 1, 0⟩
    (current.cross g).normalize
  else axis0.normalize

/-- `limitTurnRate`: return `desired` if already within `maxRate`; degenerate
tiny angles return `current`; otherwise rotate `current` about the
perpendicular axis by exactly `maxRate`. -/
noncomputable def limitTurnRate (current desired : Vec3) (maxRate : ℝ) : Vec3 :=
  let angle := current.angleTo desired
  if angle ≤ maxRate then desired
  else if angle < 0.001 then current
  else current.applyAxisAngle (turnAxis current desired) maxRate

/-! ### The boids-style curve generator (`createCurveGenerator`, src lines 93-215)

`Math.random()` and the simplex-noise sampler are modelled as oracles: the
per-call random draw is an explicit argument and the 2-D noise field an
explicit function.  A cubic Bézier curve is its four control points. -/

/-- A cubic Bézier curve: the four control points `v0 v1 v2 v3` of three.js
`CubicBezierCurve3`. -/
structure CubicBezier where
  v0 : Vec3
  v1 : Vec3
  v2 : Vec3
  v3 : Vec3

/-- The generator options, after defaulting (src lines 95-103). All are read
afresh on every call. -/
structure GenOptions where
  segMin : ℝ
  segMax : ℝ
  maxTurnRate : ℝ
  orbitRadius : ℝ
  orbitWeight : ℝ
  wanderWeight : ℝ
  wanderStrength : ℝ
  tiltStrength : ℝ
  coilAmplitude : ℝ
  coilFrequency : ℝ

/-- The generator's captured mutable state (src lines 109-114). -/
structure GenState where
  lastPoint : Vec3
  lastDir : Vec3
  noiseTime : ℝ
  orbitAngle : ℝ
  coilActivation : ℝ

/-- The state captured by `createCurveGenerator` before the first call:
`lastPoint = 0`, `lastDir = (1,0,0)`, all scalars zero. -/
def initialGenState : GenState :=
  { lastPoint := ⟨0, 0, 0⟩, lastDir := ⟨1, 0, 0⟩, noiseTime := 0
    orbitAngle := 0, coilActivation := 0 }

/-- `wanderForce` (src lines 10-35): noise-driven horizontal wander and
vertical tilt rotations of the current direction. -/
noncomputable def wanderForce (currentDir : Vec3) (noise2D : ℝ → ℝ → ℝ)
    (noiseTime wanderStrength tiltStrength : ℝ) : Vec3 :=
  let wanderAngle := noise2D noiseTime 0 * wanderStrength
  let up : Vec3 := ⟨0, 1, 0⟩
  let r1 := currentDir.applyAxisAngle up wanderAngle
  let tiltAngle := noise2D noiseTime 100 * tiltStrength
  let side := up.cross r1
  let r2 := if side.lengthSq > 0.01 then r1.applyAxisAngle side.normalize tiltAngle else r1
  r2.normalize

/-- The steering (seek/orbit) part of `nextCurve` (src lines 136-175):
returns the pre-wander desired direction together with the updated
`orbitAngle` and `coilActivation`. -/
noncomputable def seekForce (opts : GenOptions) (target : Option Vec3)
    (s : GenState) (length : ℝ) : Vec3 × ℝ × ℝ :=
  match target with
  | some tgt =>
    let toTarget := tgt.sub s.lastPoint
    let dist := toTarget.length
    let targetDir := toTarget.normalize
    let tangent : Vec3 := ⟨-targetDir.z, 0, targetDir.x⟩
    let isOrbiting := dist < opts.orbitRadius * 1.5
    let orbitAngle :=
      if isOrbiting then
        s.orbitAngle + length / (2 * Real.pi * opts.orbitRadius) * 2 * Real.pi
      else s.orbitAngle
    let coilActivation :=
      if isOrbiting then min 1 (s.coilActivation + 0.15)
      else max 0 (s.coilActivation - 0.15)
    let desired :=
      if dist > opts.orbitRadius * 1.5 then targetDir
      else
        let radialStrength := (dist - opts.orbitRadius) * 0.1
        let coilY := opts.coilAmplitude * opts.coilFrequency *
          Real.cos (opts.coilFrequency * orbitAngle) * coilActivation
        let coilTangent : Vec3 := ⟨tangent.x, coilY, tangent.z⟩
        (coilTangent.addScaledVector targetDir radialStrength).normalize
    (desired, orbitAngle, coilActivation)
  | none => (s.lastDir.smul opts.orbitWeight, s.orbitAngle, s.coilActivation)

/-- One call of the generator's `nextCurve` (src lines 117-214): the random
draw `rand` stands for `Math.random()`.  Returns the emitted Bézier segment
and the updated captured state. -/
noncomputable def nextCurve (opts : GenOptions) (noise2D : ℝ → ℝ → ℝ)
    (rand : ℝ) (target : Option Vec3) (s : GenState) : CubicBezier × GenState :=
  let length := opts.segMin + rand * (opts.segMax - opts.segMin)
  let noiseTime := s.noiseTime + 0.01
  let seek := seekForce opts target s length
  let wander := wanderForce s.lastDir noise2D noiseTime opts.wanderStrength opts.tiltStrength
  let d1 := seek.1.add ((wander.sub s.lastDir).smul opts.wanderWeight)
  let desiredDir := if d1.lengthSq > 0.001 then d1.normalize else s.lastDir
  let newDir := limitTurnRate s.lastDir desiredDir opts.maxTurnRate
  let endPoint := s.lastPoint.add (newDir.smul length)
  let turnAngle := s.lastDir.angleTo newDir
  let turnFactor := min 1 (turnAngle / (Real.pi / 2))
  let controlDist := length * (0.33 + 0.34 * turnFactor)
  let cp1 := s.lastPoint.add (s.lastDir.smul controlDist)
  let cp2 := endPoint.sub (newDir.smul controlDist)
  (⟨s.lastPoint, cp1, cp2, endPoint⟩,
    { lastPoint := endPoint, lastDir := newDir, noiseTime := noiseTime
      orbitAngle := seek.2.1, coilActivation := seek.2.2 })

/-- The sequence of `lastDir` values produced by a run of the generator:
the stored direction before any call, then after each successive call with
the given `(rand, target)` inputs. -/
noncomputable def dirTrace (opts : GenOptions) (noise2D : ℝ → ℝ → ℝ) :
    GenState → List (ℝ × Option Vec3) → List Vec3
  | s, [] => [s.lastDir]
  | s, (rand, tgt) :: rest =>
    s.lastDir :: dirTrace opts noise2D (nextCurve opts noise2D rand tgt s).2 rest

/-- The default generator options with the test value `maxTurnRate = 0.2`. -/
noncomputable def exOptions : GenOptions :=
  { segMin := 4, segMax := 8, maxTurnRate := 0.2, orbitRadius := 8
    orbitWeight := 1, wanderWeight := 0.15, wanderStrength := Real.pi / 24
    tiltStrength := Real.pi / 48, coilAmplitude := 3, coilFrequency := 0.25 }

/-! ### The `EndlessCurve` manager (src lines 255-552)

Each cached segment carries the Bézier curve together with its arclength.
three.js computes and caches the arclength by numerical integration
(`getLength` / `getCurveLengths`); it is modelled as an exact rational
quantity attached to the segment, so that the window arithmetic —
`localDistance`, eviction, `uStart`/`uLength` — is exact and decidable.
The manager's `nextCurveFn` closure is modelled as an oracle indexed by the
number of calls made so far and receiving the current steering target, as
the closure does at src line 490. -/

/-- A cached segment: the Bézier curve plus its (numerically integrated,
cached) arclength. -/
structure Seg where
  bez : CubicBezier
  len : ℚ

/-- `samplesPerCurve` (src line 264). -/
def samplesPerCurve : ℕ := 10

/-- The `EndlessCurve` instance state: the `CurvePath` curve list, the
window fields, the parallel-transport frame cache and the generator
closure (as an indexed oracle). -/
structure ECState where
  gen : ℕ → Option Vec3 → Seg
  genIdx : ℕ
  target : Option Vec3
  curves : List Seg
  distanceOffset : ℚ
  uStart : ℚ
  uLength : ℚ
  normals : List Vec3
  uValues : List ℚ
  lastNormal : Vec3

/-- The state built by the `EndlessCurve` constructor (src lines 256-265,
548-551). -/
def initialState (gen : ℕ → Option Vec3 → Seg) : ECState :=
  { gen := gen, genIdx := 0, target := none, curves := []
    distanceOffset := 0, uStart := 0, uLength := 1
    normals := [], uValues := [], lastNormal := ⟨0, 1, 0⟩ }

/-- Cumulative sums, as accumulated by three.js `getCurveLengths`. -/
def cumFrom (acc : ℚ) : List ℚ → List ℚ
  | [] => []
  | l :: ls => (acc + l) :: cumFrom (acc + l) ls

/-- `getCurveLengths`: the cumulative arclengths of the cached segments. -/
def getCurveLengths (s : ECState) : List ℚ := cumFrom 0 (s.curves.map Seg.len)

/-- The total cached arclength (`getLength` = last cumulative length). -/
def totalLen (s : ECState) : ℚ := (s.curves.map Seg.len).sum

/-- `getLengthSafe` (src lines 277-280): `0` with no cached curves. -/
def getLengthSafe (s : ECState) : ℚ :=
  if s.curves.isEmpty then 0 else totalLen s

/-- `localDistance` (src lines 273-275). -/
def localDistance (s : ECState) (globalDistance : ℚ) : ℚ :=
  globalDistance - s.distanceOffset

/-- `setTarget` (src lines 268-270). -/
def setTarget (s : ECState) (target : Vec3) : ECState :=
  { s with target := some target }

/-- The exact derivative of a cubic Bézier curve:
`3(1-t)²(v1-v0) + 6(1-t)t(v2-v1) + 3t²(v3-v2)`. -/
noncomputable def bezierDerivative (c : CubicBezier) (t : ℝ) : Vec3 :=
  ((c.v1.sub c.v0).smul (3 * (1 - t) ^ 2)).add
    (((c.v2.sub c.v1).smul (6 * (1 - t) * t)).add
      ((c.v3.sub c.v2).smul (3 * t ^ 2)))

/-- `getAnalyticalTangent` (src lines 235-246): exact derivative directions
at the endpoints `t = 0` and `t = 1`; at interior parameters the code falls
back to three.js `getTangentAt`, whose numerically differentiated value is
modelled as the exact normalized derivative. -/
noncomputable def getAnalyticalTangent (c : CubicBezier) (t : ℝ) : Vec3 :=
  if t = 0 then (c.v1.sub c.v0).normalize
  else if t = 1 then (c.v3.sub c.v2).normalize
  else (bezierDerivative c t).normalize

/-- `getArbitraryPerpendicular` (src lines 388-394). -/
noncomputable def getArbitraryPerpendicular (v : Vec3) : Vec3 :=
  let up : Vec3 := if |v.dot ⟨0, 1, 0⟩| > 0.9 then ⟨1, 0, 0⟩ else ⟨0, 1, 0⟩
  (v.cross up).normalize

/-- `parallelTransport` (src lines 349-383): rotate the previous normal
from the previous tangent onto the new tangent, then re-project and
normalize. Nearly parallel tangents (`dot > 0.9999`) return the previous
normal unchanged. -/
noncomputable def parallelTransport (prevNormal prevTangent newTangent : Vec3) : Vec3 :=
  let d := prevTangent.dot newTangent
  if d > 0.9999 then prevNormal
  else
    let axis0 := prevTangent.cross newTangent
    let axis :=
      if axis0.lengthSq < 0.0001 then
        let g : Vec3 := if |prevTangent.dot ⟨1, 0, 0⟩| > 0.9 then ⟨0, 1, 0⟩ else ⟨1, 0, 0⟩
        (g.cross prevTangent).normalize
      else axis0.normalize
    let angle := Real.arccos (max (-1) (min 1 d))
    let rotated := prevNormal.applyAxisAngle axis angle
    let projected := rotated.sub (newTangent.smul (rotated.dot newTangent))
    projected.normalize

/-- The sampling loop of `computeFramesForCurve` (src lines 322-336): emit
`count` parallel-transported frame normals starting at sample index `i`,
returning the emitted normals in order together with the final normal. -/
noncomputable def ptfSamples (bez : CubicBezier) (count i : ℕ) (prevN prevT : Vec3) :
    List Vec3 × Vec3 :=
  match count with
  | 0 => ([], prevN)
  | count + 1 =>
    let tangent := getAnalyticalTangent bez ((i : ℝ) / (samplesPerCurve : ℝ))
    let normal := parallelTransport prevN prevT tangent
    let rest := ptfSamples bez count (i + 1) normal tangent
    (normal :: rest.1, rest.2)

/-- `recalculateUValues` (src lines 399-418): rewrite the cached u-values in
place from the current cumulative lengths; indices beyond the generated
count keep their old values, and the cache length never changes. -/
def recalcUValues (s : ECState) : ECState :=
  if s.curves.isEmpty then s
  else
    let totalLength := totalLen s
    let curveLengths := getCurveLengths s
    let generated := (List.range s.curves.length).flatMap (fun curveIndex =>
      let startLength := if curveIndex > 0 then curveLengths.getD (curveIndex - 1) 0 else 0
      let endLength := curveLengths.getD curveIndex 0
      let curveLength := endLength - startLength
      (List.range (samplesPerCurve + 1)).map (fun i =>
        (startLength + curveLength * ((i : ℚ) / (samplesPerCurve : ℚ))) / totalLength))
    { s with uValues := generated.take s.uValues.length ++ s.uValues.drop generated.length }

/-- `computeFramesForCurve` (src lines 303-343): seed the transport from the
previous segment's exit tangent and the stored `lastNormal` (or, for the
first segment, from the entry tangent and an arbitrary perpendicular),
append `samplesPerCurve + 1` frame samples, store the final normal, then
recalculate all u-values. -/
noncomputable def computeFramesForCurve (s : ECState) (curveIndex : ℕ) : ECState :=
  match s.curves[curveIndex]? with
  | none => s
  | some seg =>
    let seed : Vec3 × Vec3 :=
      if curveIndex > 0 then
        (s.lastNormal, getAnalyticalTangent ((s.curves[curveIndex - 1]?).getD seg).bez 1)
      else
        let t0 := getAnalyticalTangent seg.bez 0
        (getArbitraryPerpendicular t0, t0)
    let res := ptfSamples seg.bez (samplesPerCurve + 1) 0 seed.1 seed.2
    recalcUValues { s with
      normals := s.normals ++ res.1
      uValues := s.uValues ++ List.replicate (samplesPerCurve + 1) 0
      lastNormal := res.2 }

/-- `addCurve` (src lines 286-295): push the curve and compute its frames. -/
noncomputable def addCurve (s : ECState) (seg : Seg) : ECState :=
  computeFramesForCurve { s with curves := s.curves ++ [seg] } s.curves.length

/-- `fillLength` (src lines 484-493), with the unbounded recursion made
explicit by a fuel parameter: generate segments (passing the current target
to the generator closure) until the cached length strictly exceeds the
local distance of `length`. -/
noncomputable def fillLength (fuel : ℕ) (s : ECState) (length : ℚ) : ECState :=
  match fuel with
  | 0 => s
  | fuel + 1 =>
    if localDistance s length < getLengthSafe s then s
    else
      let newSeg := s.gen s.genIdx s.target
      fillLength fuel (addCurve { s with genIdx := s.genIdx + 1 } newSeg) length

/-- `removeCurvesBefore` (src lines 495-523): drop the whole segments whose
cumulative arclength is at or before the local position, together with
their frame-cache blocks, accumulating the removed length into
`distanceOffset`. -/
noncomputable def removeCurvesBefore (s : ECState) (position : ℚ) : ECState :=
  let p := localDistance s position
  let lengths := getCurveLengths s
  let pref := lengths.takeWhile (fun L => decide (L ≤ p))
  let remove := pref.length
  let removedOffset := pref.getLastD 0
  if remove = 0 then s
  else
    recalcUValues { s with
      distanceOffset := s.distanceOffset + removedOffset
      curves := s.curves.drop remove
      normals := s.normals.drop (remove * (samplesPerCurve + 1))
      uValues := s.uValues.drop (remove * (samplesPerCurve + 1)) }

/-- `configureStartEnd` (src lines 525-534). -/
noncomputable def configureStartEnd (fuel : ℕ) (s : ECState) (position length : ℚ) :
    ECState :=
  let s1 := fillLength fuel s (position + length)
  let s2 := removeCurvesBefore s1 position
  let localPos := localDistance s2 position
  let total := getLengthSafe s2
  { s2 with
    uStart := if total > 0 then localPos / total else 0
    uLength := if total > 0 then length / total else 1 }

/-- The point of a cubic Bézier curve at parameter `t`. -/
noncomputable def bezierPoint (c : CubicBezier) (t : ℝ) : Vec3 :=
  (((c.v0.smul ((1 - t) ^ 3)).add (c.v1.smul (3 * (1 - t) ^ 2 * t))).add
    (c.v2.smul (3 * (1 - t) * t ^ 2))).add (c.v3.smul (t ^ 3))

/-- Locate the segment containing arclength `d` and evaluate its Bézier
curve there.  three.js (`CurvePath.getPointAt`) resolves this with its
numerically integrated arclength tables; it is modelled with the exact
per-segment arclengths, evaluating the curve at the arclength fraction
within the located segment. -/
noncomputable def pathPointFrom : List Seg → ℝ → Vec3
  | [], _ => ⟨0, 0, 0⟩
  | seg :: rest, d =>
    if d ≤ (seg.len : ℝ) ∨ rest.isEmpty then bezierPoint seg.bez (d / (seg.len : ℝ))
    else pathPointFrom rest (d - (seg.len : ℝ))

/-- Like `pathPointFrom` but for the (normalized) tangent, modelling
`getTangentAt`. -/
noncomputable def pathTangentFrom : List Seg → ℝ → Vec3
  | [], _ => ⟨0, 0, 0⟩
  | seg :: rest, d =>
    if d ≤ (seg.len : ℝ) ∨ rest.isEmpty then
      (bezierDerivative seg.bez (d / (seg.len : ℝ))).normalize
    else pathTangentFrom rest (d - (seg.len : ℝ))

/-- `getPointAt u` over the whole cached path. -/
noncomputable def getPointAt (s : ECState) (u : ℝ) : Vec3 :=
  pathPointFrom s.curves (u * (totalLen s : ℝ))

/-- `getTangentAt u` over the whole cached path, normalized. -/
noncomputable def getTangentAt (s : ECState) (u : ℝ) : Vec3 :=
  (pathTangentFrom s.curves (u * (totalLen s : ℝ))).normalize

/-- The `while (low < high - 1)` bisection of `interpolateNormal`
(src lines 449-456), with fuel bounding the iteration count. -/
noncomputable def binSearch (uValues : List ℚ) (u : ℝ) : ℕ → ℕ → ℕ → ℕ × ℕ
  | low, high, 0 => (low, high)
  | low, high, fuel + 1 =>
    if low + 1 < high then
      let mid := (low + high) / 2
      if ((uValues.getD mid 0 : ℚ) : ℝ) ≤ u then binSearch uValues u mid high fuel
      else binSearch uValues u low mid fuel
    else (low, high)

/-- `Vector3.lerp`. -/
def lerp (a b : Vec3) (t : ℝ) : Vec3 := a.add ((b.sub a).smul t)

/-- `interpolateNormal` (src lines 424-467): clamped lookup with linear
interpolation between the bracketing cached frame samples; an empty cache
degrades to an arbitrary perpendicular of the tangent. -/
noncomputable def interpolateNormal (s : ECState) (u : ℝ) : Vec3 :=
  if s.normals.isEmpty then getArbitraryPerpendicular (getTangentAt s u)
  else if s.normals.length = 1 then s.normals.getD 0 ⟨0, 0, 0⟩
  else if u ≤ ((s.uValues.getD 0 0 : ℚ) : ℝ) then s.normals.getD 0 ⟨0, 0, 0⟩
  else if ((s.uValues.getD (s.uValues.length - 1) 0 : ℚ) : ℝ) ≤ u then
    s.normals.getD (s.uValues.length - 1) ⟨0, 0, 0⟩
  else
    let lh := binSearch s.uValues u 0 (s.uValues.length - 1) s.uValues.length
    let uLow := ((s.uValues.getD lh.1 0 : ℚ) : ℝ)
    let uHigh := ((s.uValues.getD lh.2 0 : ℚ) : ℝ)
    let t := if uLow < uHigh then (u - uLow) / (uHigh - uLow) else 0
    (lerp (s.normals.getD lh.1 ⟨0, 0, 0⟩) (s.normals.getD lh.2 ⟨0, 0, 0⟩) t).normalize

/-- `CurveBasis` (src lines 221-225). -/
structure CurveBasis where
  position : Vec3
  normal : Vec3
  tangent : Vec3

/-- `getBasisAt` (src lines 473-479). -/
noncomputable def getBasisAt (s : ECState) (u : ℝ) : CurveBasis :=
  { position := getPointAt s u, tangent := getTangentAt s u
    normal := interpolateNormal s u }

/-- `getPointAtLocal` (src lines 537-540). -/
noncomputable def getPointAtLocal (s : ECState) (u : ℝ) : Vec3 :=
  getPointAt s (min ((s.uStart : ℝ) + (s.uLength : ℝ) * u) 1)

/-- `getBasisAtLocal` (src lines 542-545). -/
noncomputable def getBasisAtLocal (s : ECState) (u : ℝ) : CurveBasis :=
  getBasisAt s (min ((s.uStart : ℝ) + (s.uLength : ℝ) * u) 1)

/-- The index-alignment invariant of the frame cache: the normals and
u-values sequences have equal length, namely
`segmentCount * (samplesPerCurve + 1)`. -/
def cacheAligned (s : ECState) : Prop :=
  s.normals.length = s.uValues.length ∧
  s.normals.length = s.curves.length * (samplesPerCurve + 1)

/-- A straight-line example Bézier segment along the x-axis. -/
def exBez : CubicBezier := ⟨⟨0, 0, 0⟩, ⟨1, 0, 0⟩, ⟨2, 0, 0⟩, ⟨3, 0, 0⟩⟩

/-- A straight-line example segment continuing `exBez`. -/
def exBez2 : CubicBezier := ⟨⟨3, 0, 0⟩, ⟨4, 0, 0⟩, ⟨5, 0, 0⟩, ⟨6, 0, 0⟩⟩

/-- An example cached segment of arclength 6. -/
def exSeg : Seg := ⟨exBez, 6⟩

/-- An example segment of arclength 6 whose entry tangent matches `exSeg`'s
exit tangent. -/
def exSeg2 : Seg := ⟨exBez2, 6⟩

/-- A constant example generator: every call yields `exSeg`. -/
def exGen : ℕ → Option Vec3 → Seg := fun _ _ => exSeg

/-- An example manager state holding the single straight segment `exSeg`
with its 11 cached frame samples, all equal to the transported normal
`(0,0,1)`. -/
def exC2State : ECState :=
  { gen := exGen, genIdx := 1, target := none
    curves := [exSeg]
    distanceOffset := 0, uStart := 0, uLength := 1
    normals := List.replicate 11 ⟨0, 0, 1⟩
    uValues := List.replicate 11 0
    lastNormal := ⟨0, 0, 1⟩ }

/-- An example manager state holding 5 cached segments of arclength 6 each
(total length 30), with a well-formed frame cache of 55 samples. -/
def ex5State : ECState :=
  { gen := exGen, genIdx := 5, target := none
    curves := List.replicate 5 exSeg
    distanceOffset := 0, uStart := 0, uLength := 1
    normals := List.replicate 55 ⟨0, 0, 1⟩
    uValues := List.replicate 55 0
    lastNormal := ⟨0, 0, 1⟩ }

/-! ### `removeCurvesBefore` lemmas -/

/-- The loop counter `remove` of `removeCurvesBefore` (src lines 499-506):
how many leading segments have their cumulative arclength at or before the
local position. -/
def evictCount (s : ECState) (position : ℚ) : ℕ :=
  ((getCurveLengths s).takeWhile
    (fun L => decide (L ≤ position - s.distanceOffset))).length

/-- The sequence of `distanceOffset` values observed after each
`configureStartEnd` call of a call sequence. -/
noncomputable def offsetTrace (fuel : ℕ) : ECState → List (ℚ × ℚ) → List ℚ
  | _, [] => []
  | s, c :: rest =>
    (configureStartEnd fuel s c.1 c.2).distanceOffset ::
      offsetTrace fuel (configureStartEnd fuel s c.1 c.2) rest

namespace Vec3

@[simp] lemma add_x (a b : Vec3) : (a.add b).x = a.x + b.x := rfl
@[simp] lemma add_y (a b : Vec3) : (a.add b).y = a.y + b.y := rfl
@[simp] lemma add_z (a b : Vec3) : (a.add b).z = a.z + b.z := rfl
@[simp] lemma sub_x (a b : Vec3) : (a.sub b).x = a.x - b.x := rfl
@[simp] lemma sub_y (a b : Vec3) : (a.sub b).y = a.y - b.y := rfl
@[simp] lemma sub_z (a b : Vec3) : (a.sub b).z = a.z - b.z := rfl
@[simp] lemma smul_x (a : Vec3) (c : ℝ) : (a.smul c).x = a.x * c := rfl
@[simp] lemma smul_y (a : Vec3) (c : ℝ) : (a.smul c).y = a.y * c := rfl
@[simp] lemma smul_z (a : Vec3) (c : ℝ) : (a.smul c).z = a.z * c := rfl

lemma lengthSq_nonneg (a : Vec3) : 0 ≤ a.lengthSq := by
  unfold lengthSq; nlinarith [sq_nonneg a.x, sq_nonneg a.y, sq_nonneg a.z]

lemma length_nonneg (a : Vec3) : 0 ≤ a.length := Real.sqrt_nonneg _

lemma length_sq_eq (a : Vec3) : a.length * a.length = a.lengthSq :=
  Real.mul_self_sqrt a.lengthSq_nonneg

/-- The scalar triple product of a cross product with one of its factors
vanishes. -/
lemma cross_dot_left (a b : Vec3) : (a.cross b).dot a = 0 := by
  unfold cross dot; ring

lemma cross_dot_right (a b : Vec3) : (a.cross b).dot b = 0 := by
  unfold cross dot; ring

/-- Lagrange's identity for the cross product. -/
lemma lengthSq_cross (a b : Vec3) :
    (a.cross b).lengthSq = a.lengthSq * b.lengthSq - (a.dot b) * (a.dot b) := by
  unfold cross lengthSq dot; ring

lemma lengthSq_smul (a : Vec3) (c : ℝ) : (a.smul c).lengthSq = c * c * a.lengthSq := by
  unfold smul lengthSq; ring

lemma dot_smul_left (a b : Vec3) (c : ℝ) : (a.smul c).dot b = c * (a.dot b) := by
  unfold smul dot; ring

lemma length_eq_one_iff (a : Vec3) : a.length = 1 ↔ a.lengthSq = 1 := by
  constructor
  · intro h
    have := a.length_sq_eq
    rw [h] at this; linarith
  · intro h
    have : a.length = Real.sqrt 1 := by rw [← h]; rfl
    simpa using this

/-- A vector with positive squared length normalizes to a unit vector. -/
lemma lengthSq_normalize (a : Vec3) (h : 0 < a.lengthSq) :
    a.normalize.lengthSq = 1 := by
  have hl : 0 < a.length := Real.sqrt_pos.mpr h
  unfold normalize
  rw [if_neg (ne_of_gt hl), lengthSq_smul]
  have hsq := a.length_sq_eq
  field_simp
  nlinarith [hsq]

lemma normalize_dot (a b : Vec3) : a.normalize.dot b = (1 / (if a.length = 0 then 1 else a.length)) * (a.dot b) := by
  unfold normalize
  exact dot_smul_left a b _

lemma dot_self (a : Vec3) : a.dot a = a.lengthSq := rfl

lemma dot_comm (a b : Vec3) : a.dot b = b.dot a := by unfold dot; ring

lemma dot_add_right (a b c : Vec3) : a.dot (b.add c) = a.dot b + a.dot c := by
  unfold dot add; ring

lemma dot_smul_right (a b : Vec3) (c : ℝ) : a.dot (b.smul c) = c * (a.dot b) := by
  unfold dot smul; ring

lemma lengthSq_add (a b : Vec3) :
    (a.add b).lengthSq = a.lengthSq + 2 * (a.dot b) + b.lengthSq := by
  unfold lengthSq add dot; ring

/-- Rodrigues closed form of the quaternion rotation, for an axis that is a
unit vector perpendicular to the rotated vector. -/
lemma applyAxisAngle_perp_unit (v a : Vec3) (θ : ℝ)
    (ha : a.lengthSq = 1) (hav : a.dot v = 0) :
    v.applyAxisAngle a θ =
      (v.smul (1 - 2 * Real.sin (θ / 2) ^ 2)).add
        ((a.cross v).smul (2 * Real.sin (θ / 2) * Real.cos (θ / 2))) := by
  unfold applyAxisAngle
  unfold lengthSq at ha
  unfold dot at hav
  ext <;> simp only [add_x, add_y, add_z, smul_x, smul_y, smul_z, cross]
  · linear_combination (2 * Real.sin (θ / 2) ^ 2 * a.x) * hav -
      (2 * Real.sin (θ / 2) ^ 2 * v.x) * ha
  · linear_combination (2 * Real.sin (θ / 2) ^ 2 * a.y) * hav -
      (2 * Real.sin (θ / 2) ^ 2 * v.y) * ha
  · linear_combination (2 * Real.sin (θ / 2) ^ 2 * a.z) * hav -
      (2 * Real.sin (θ / 2) ^ 2 * v.z) * ha

/-- Rotating a unit vector about a perpendicular unit axis by `θ` gives a
vector whose dot product with the original is `cos θ`. -/
lemma dot_applyAxisAngle_perp_unit (v a : Vec3) (θ : ℝ)
    (hv : v.lengthSq = 1) (ha : a.lengthSq = 1) (hav : a.dot v = 0) :
    v.dot (v.applyAxisAngle a θ) = Real.cos θ := by
  rw [applyAxisAngle_perp_unit v a θ ha hav, dot_add_right, dot_smul_right,
    dot_smul_right, dot_self, hv]
  have hc : v.dot (a.cross v) = 0 := by rw [dot_comm]; exact cross_dot_right a v
  have hs : Real.sin (θ / 2) ^ 2 = 1 / 2 - Real.cos θ / 2 := by
    have := Real.sin_sq_eq_half_sub (θ / 2)
    rwa [show 2 * (θ / 2) = θ by ring] at this
  rw [hc, hs]; ring

/-- Rotation about a perpendicular unit axis preserves a unit vector's
length. -/
lemma lengthSq_applyAxisAngle_perp_unit (v a : Vec3) (θ : ℝ)
    (hv : v.lengthSq = 1) (ha : a.lengthSq = 1) (hav : a.dot v = 0) :
    (v.applyAxisAngle a θ).lengthSq = 1 := by
  rw [applyAxisAngle_perp_unit v a θ ha hav, lengthSq_add, lengthSq_smul,
    lengthSq_smul, dot_smul_left, dot_smul_right, lengthSq_cross, ha, hv, hav]
  have hc : v.dot (a.cross v) = 0 := by rw [dot_comm]; exact cross_dot_right a v
  have hsc : Real.sin (θ / 2) ^ 2 + Real.cos (θ / 2) ^ 2 = 1 :=
    Real.sin_sq_add_cos_sq (θ / 2)
  rw [hc]
  nlinarith [hsc]

/-- `angleTo` between unit vectors is the arccosine of their (clamped) dot
product. -/
lemma angleTo_of_unit (a b : Vec3) (ha : a.lengthSq = 1) (hb : b.lengthSq = 1) :
    a.angleTo b = Real.arccos (max (-1) (min 1 (a.dot b))) := by
  unfold angleTo
  rw [ha, hb]
  norm_num

/-- The angle of a unit vector with itself is zero. -/
lemma angleTo_self_of_unit (a : Vec3) (ha : a.lengthSq = 1) : a.angleTo a = 0 := by
  rw [angleTo_of_unit a a ha ha]
  unfold dot
  unfold lengthSq at ha
  rw [show a.x * a.x + a.y * a.y + a.z * a.z = 1 from ha]
  norm_num [Real.arccos_one]

/-- `angleTo` is never negative. -/
lemma angleTo_nonneg (a b : Vec3) : 0 ≤ a.angleTo b := by
  unfold angleTo
  dsimp only
  split
  · positivity
  · exact Real.arccos_nonneg _

/-- `angleTo` never exceeds `π`. -/
lemma angleTo_le_pi (a b : Vec3) : a.angleTo b ≤ Real.pi := by
  unfold angleTo
  dsimp only
  split
  · linarith [Real.pi_pos]
  · exact Real.arccos_le_pi _

lemma normalize_dot_zero (a b : Vec3) (h : a.dot b = 0) : a.normalize.dot b = 0 := by
  rw [normalize_dot, h, mul_zero]

end Vec3

/-!
Verification of the procedural-snake curve system.

This file is a shallow embedding, over the real numbers, of the
curve-generation and curve-management code of the repository:
  * the boids-style steering generator (`wanderForce`, `limitTurnRate`,
    `createCurveGenerator`'s inner `nextCurve`), and
  * the `EndlessCurve` manager (parallel-transport frame cache, window
    management: `fillLength`, `removeCurvesBefore`, `configureStartEnd`).

Vectors are triples of reals; the three.js `Vector3` operations the code
calls (`add`, `sub`, `multiplyScalar`, `dot`, `cross`, `normalize`,
`angleTo`, `applyAxisAngle` via quaternions) are translated from the
three.js sources.  Arclengths, which three.js obtains by numerical
integration and caches, are modelled as an exact nonnegative quantity
attached to each segment; all window arithmetic is carried out in ℚ so
that concrete runs are decidable.  The unbounded recursion of
`fillLength` is modelled with an explicit fuel parameter; the termination
theorem shows a computable amount of fuel always suffices.
-/

/-- For a unit `current`, the chosen rotation axis is a unit vector. -/
lemma turnAxis_unit (current desired : Vec3) (hv : current.lengthSq = 1) :
    (turnAxis current desired).lengthSq = 1 := by
  simp only [turnAxis]
  split_ifs with h1 h2
  · apply Vec3.lengthSq_normalize
    unfold Vec3.cross Vec3.lengthSq at *
    simp only
    nlinarith [h2, abs_nonneg current.y, sq_abs current.y, sq_nonneg current.z, hv]
  · apply Vec3.lengthSq_normalize
    unfold Vec3.cross Vec3.lengthSq at *
    simp only
    have h2' : |current.y| ≤ 0.9 := le_of_not_lt h2
    nlinarith [h2', abs_nonneg current.y, sq_abs current.y, sq_nonneg current.x,
      sq_nonneg current.z, hv]
  · apply Vec3.lengthSq_normalize
    have h1' : (0.0001 : ℝ) ≤ (current.cross desired).lengthSq := le_of_not_lt h1
    linarith

/-- The chosen rotation axis is perpendicular to `current`. -/
lemma turnAxis_dot (current desired : Vec3) :
    (turnAxis current desired).dot current = 0 := by
  simp only [turnAxis]
  split_ifs <;> exact Vec3.normalize_dot_zero _ _ (Vec3.cross_dot_left _ _)

/-- **Turn-rate bound for `limitTurnRate`**: starting from a unit `current`
direction and a nonnegative `maxRate`, the angle between `current` and the
returned direction never exceeds `maxRate`. -/
lemma limitTurnRate_angle_le (current desired : Vec3) (maxRate : ℝ)
    (hv : current.lengthSq = 1) (hr : 0 ≤ maxRate) :
    current.angleTo (limitTurnRate current desired maxRate) ≤ maxRate := by
  simp only [limitTurnRate]
  split_ifs with h1 h2
  · exact h1
  · rw [Vec3.angleTo_self_of_unit current hv]; exact hr
  · have hlt : maxRate < current.angleTo desired := lt_of_not_le h1
    have hpi : current.angleTo desired ≤ Real.pi := Vec3.angleTo_le_pi current desired
    have hle : maxRate ≤ Real.pi := le_of_lt (lt_of_lt_of_le hlt hpi)
    have haxu := turnAxis_unit current desired hv
    have haxd := turnAxis_dot current desired
    have hrot : (current.applyAxisAngle (turnAxis current desired) maxRate).lengthSq = 1 :=
      Vec3.lengthSq_applyAxisAngle_perp_unit current _ maxRate hv haxu haxd
    rw [Vec3.angleTo_of_unit current _ hv hrot,
      Vec3.dot_applyAxisAngle_perp_unit current _ maxRate hv haxu haxd]
    rw [min_eq_right (Real.cos_le_one maxRate),
      max_eq_right (Real.neg_one_le_cos maxRate),
      Real.arccos_cos hr hle]

/-- `limitTurnRate` maps unit directions to unit directions. -/
lemma limitTurnRate_lengthSq (current desired : Vec3) (maxRate : ℝ)
    (hv : current.lengthSq = 1) (hd : desired.lengthSq = 1) :
    (limitTurnRate current desired maxRate).lengthSq = 1 := by
  simp only [limitTurnRate]
  split_ifs
  · exact hd
  · exact hv
  · exact Vec3.lengthSq_applyAxisAngle_perp_unit current _ maxRate hv
      (turnAxis_unit current desired hv) (turnAxis_dot current desired)

/-- The desired direction fed to `limitTurnRate` is always a unit vector
when the current direction is one (src lines 183-187: it is either a
normalized nonzero vector or `lastDir` itself). -/
lemma nextCurve_desired_unit (s : GenState) (hv : s.lastDir.lengthSq = 1)
    (d1 : Vec3) :
    (if d1.lengthSq > 0.001 then d1.normalize else s.lastDir).lengthSq = 1 := by
  split_ifs with h
  · exact Vec3.lengthSq_normalize d1 (lt_trans (by norm_num) h)
  · exact hv

/-- One generator call turns the direction by at most `maxTurnRate` and
keeps it unit. -/
lemma nextCurve_step (opts : GenOptions) (noise2D : ℝ → ℝ → ℝ) (rand : ℝ)
    (target : Option Vec3) (s : GenState)
    (hv : s.lastDir.lengthSq = 1) (hr : 0 ≤ opts.maxTurnRate) :
    s.lastDir.angleTo (nextCurve opts noise2D rand target s).2.lastDir ≤ opts.maxTurnRate ∧
      (nextCurve opts noise2D rand target s).2.lastDir.lengthSq = 1 := by
  simp only [nextCurve]
  constructor
  · exact limitTurnRate_angle_le s.lastDir _ opts.maxTurnRate hv hr
  · exact limitTurnRate_lengthSq s.lastDir _ opts.maxTurnRate hv
      (nextCurve_desired_unit s hv _)

lemma dirTrace_chain (opts : GenOptions) (noise2D : ℝ → ℝ → ℝ)
    (inputs : List (ℝ × Option Vec3)) (s : GenState)
    (hv : s.lastDir.lengthSq = 1) (hr : 0 ≤ opts.maxTurnRate) :
    List.Chain' (fun a b => a.angleTo b ≤ opts.maxTurnRate)
      (dirTrace opts noise2D s inputs) := by
  induction inputs generalizing s with
  | nil => simp [dirTrace]
  | cons input rest ih =>
    obtain ⟨rand, tgt⟩ := input
    have hstep := nextCurve_step opts noise2D rand tgt s hv hr
    have htail := ih (nextCurve opts noise2D rand tgt s).2 hstep.2
    simp only [dirTrace]
    apply List.Chain'.cons'
    · exact htail
    · intro b hb
      have : b = (nextCurve opts noise2D rand tgt s).2.lastDir := by
        cases rest with
        | nil => simp [dirTrace] at hb; exact hb.symm
        | cons r rs =>
          obtain ⟨r1, r2⟩ := r
          simp [dirTrace] at hb; exact hb.symm
      rw [this]
      exact hstep.1

/-- **C1**: For every run of the steering generator's `nextCurve` — with or
without a target at each call, for any noise field and random draws, so in
particular for any oscillating sequence of targets — the angle between the
stored `lastDir` before a call and the new direction after it never exceeds
the configured `maxTurnRate`; the new direction comes from `limitTurnRate`'s
axis-angle rotation (with perpendicular-axis fallback), never a linear
blend. -/
theorem c1_turn_rate_bound (opts : GenOptions) (noise2D : ℝ → ℝ → ℝ)
    (inputs : List (ℝ × Option Vec3)) (hr : 0 ≤ opts.maxTurnRate) :
    List.Chain' (fun a b => a.angleTo b ≤ opts.maxTurnRate)
      (dirTrace opts noise2D initialGenState inputs) :=
  dirTrace_chain opts noise2D inputs initialGenState
    (by norm_num [initialGenState, Vec3.lengthSq]) hr

theorem c1_turn_rate_bound_witness :
    0 ≤ exOptions.maxTurnRate ∧
      List.Chain' (fun a b => a.angleTo b ≤ exOptions.maxTurnRate)
        (dirTrace exOptions (fun _ _ => 0) initialGenState
          [(0.5, none), (0.25, some ⟨0, 0, 10⟩), (0.75, some ⟨0, 0, -10⟩)]) :=
  ⟨by norm_num [exOptions],
    c1_turn_rate_bound exOptions (fun _ _ => 0)
      [(0.5, none), (0.25, some ⟨0, 0, 10⟩), (0.75, some ⟨0, 0, -10⟩)]
      (by norm_num [exOptions])⟩

/-! ### Bookkeeping lemmas for the manager -/

lemma getLengthSafe_eq (s : ECState) : getLengthSafe s = totalLen s := by
  cases h : s.curves with
  | nil => simp [getLengthSafe, totalLen, h]
  | cons a l => simp [getLengthSafe, totalLen, h]

lemma cumFrom_length (acc : ℚ) (ls : List ℚ) : (cumFrom acc ls).length = ls.length := by
  induction ls generalizing acc with
  | nil => rfl
  | cons l ls ih => simp [cumFrom, ih]

lemma cumFrom_mem_le (acc : ℚ) (ls : List ℚ) (hnn : ∀ l ∈ ls, 0 ≤ l) :
    ∀ x ∈ cumFrom acc ls, acc ≤ x := by
  induction ls generalizing acc with
  | nil => intro x hx; simp [cumFrom] at hx
  | cons l ls ih =>
    intro x hx
    simp only [cumFrom, List.mem_cons] at hx
    have hl : 0 ≤ l := hnn l (List.mem_cons_self l ls)
    rcases hx with rfl | hx
    · linarith
    · have := ih (acc + l) (fun a ha => hnn a (List.mem_cons_of_mem _ ha)) x hx
      linarith

/-- The prefix selected by the eviction loop has as many elements as there
are cumulative lengths at or before `p`: for nonnegative segment lengths
the cumulative sequence is monotone, so breaking at the first excessive
entry skips nothing. -/
lemma cumFrom_takeWhile_length (p acc : ℚ) (ls : List ℚ) (hnn : ∀ l ∈ ls, 0 ≤ l) :
    ((cumFrom acc ls).takeWhile (fun L => decide (L ≤ p))).length =
      (cumFrom acc ls).countP (fun L => decide (L ≤ p)) := by
  induction ls generalizing acc with
  | nil => simp [cumFrom]
  | cons l ls ih =>
    simp only [cumFrom]
    by_cases hc : acc + l ≤ p
    · rw [List.takeWhile_cons_of_pos (by simpa using hc),
        List.countP_cons_of_pos _ _ (by simpa using hc)]
      simp [ih (acc + l) (fun a ha => hnn a (List.mem_cons_of_mem _ ha))]
    · rw [List.takeWhile_cons_of_neg (by simpa using hc),
        List.countP_cons_of_neg _ _ (by simpa using hc)]
      simp only [List.length_nil]
      symm
      rw [List.countP_eq_zero]
      intro a ha
      have hge : acc + l ≤ a :=
        cumFrom_mem_le (acc + l) ls (fun b hb => hnn b (List.mem_cons_of_mem _ hb)) a ha
      simp only [decide_eq_true_eq]
      intro hle
      exact hc (le_trans hge hle)

/-- The last entry of the selected prefix is the sum of the evicted segment
lengths (shifted by the accumulator). -/
lemma cumFrom_takeWhile_getLastD (p acc : ℚ) (ls : List ℚ) :
    ((cumFrom acc ls).takeWhile (fun L => decide (L ≤ p))).getLastD acc =
      acc + (ls.take ((cumFrom acc ls).takeWhile (fun L => decide (L ≤ p))).length).sum := by
  induction ls generalizing acc with
  | nil => simp [cumFrom]
  | cons l ls ih =>
    simp only [cumFrom]
    by_cases hc : acc + l ≤ p
    · rw [List.takeWhile_cons_of_pos (by simpa using hc), List.getLastD_cons,
        ih (acc + l)]
      simp only [List.length_cons, List.take_succ_cons, List.sum_cons]
      ring
    · rw [List.takeWhile_cons_of_neg (by simpa using hc)]
      simp

lemma recalcUValues_curves (s : ECState) : (recalcUValues s).curves = s.curves := by
  unfold recalcUValues; split <;> rfl

lemma recalcUValues_distanceOffset (s : ECState) :
    (recalcUValues s).distanceOffset = s.distanceOffset := by
  unfold recalcUValues; split <;> rfl

lemma recalcUValues_normals (s : ECState) : (recalcUValues s).normals = s.normals := by
  unfold recalcUValues; split <;> rfl

lemma recalcUValues_lastNormal (s : ECState) :
    (recalcUValues s).lastNormal = s.lastNormal := by
  unfold recalcUValues; split <;> rfl

lemma recalcUValues_gen (s : ECState) : (recalcUValues s).gen = s.gen := by
  unfold recalcUValues; split <;> rfl

lemma recalcUValues_genIdx (s : ECState) : (recalcUValues s).genIdx = s.genIdx := by
  unfold recalcUValues; split <;> rfl

lemma recalcUValues_target (s : ECState) : (recalcUValues s).target = s.target := by
  unfold recalcUValues; split <;> rfl

lemma recalcUValues_uStart (s : ECState) : (recalcUValues s).uStart = s.uStart := by
  unfold recalcUValues; split <;> rfl

lemma recalcUValues_uLength (s : ECState) : (recalcUValues s).uLength = s.uLength := by
  unfold recalcUValues; split <;> rfl

/-- `recalculateUValues` never changes the length of the u-value cache. -/
lemma recalcUValues_uValues_length (s : ECState) :
    (recalcUValues s).uValues.length = s.uValues.length := by
  unfold recalcUValues
  split
  · rfl
  · simp only [List.length_append, List.length_take, List.length_drop]
    omega

lemma ptfSamples_fst_length (bez : CubicBezier) (count i : ℕ) (prevN prevT : Vec3) :
    (ptfSamples bez count i prevN prevT).1.length = count := by
  induction count generalizing i prevN prevT with
  | zero => rfl
  | succ n ih => simp [ptfSamples, ih]

lemma computeFramesForCurve_curves (s : ECState) (i : ℕ) :
    (computeFramesForCurve s i).curves = s.curves := by
  cases h : s.curves[i]? <;> unfold computeFramesForCurve <;>
    simp [h, recalcUValues_curves]

lemma computeFramesForCurve_distanceOffset (s : ECState) (i : ℕ) :
    (computeFramesForCurve s i).distanceOffset = s.distanceOffset := by
  cases h : s.curves[i]? <;> unfold computeFramesForCurve <;>
    simp [h, recalcUValues_distanceOffset]

lemma computeFramesForCurve_gen (s : ECState) (i : ℕ) :
    (computeFramesForCurve s i).gen = s.gen := by
  cases h : s.curves[i]? <;> unfold computeFramesForCurve <;>
    simp [h, recalcUValues_gen]

lemma computeFramesForCurve_genIdx (s : ECState) (i : ℕ) :
    (computeFramesForCurve s i).genIdx = s.genIdx := by
  cases h : s.curves[i]? <;> unfold computeFramesForCurve <;>
    simp [h, recalcUValues_genIdx]

lemma computeFramesForCurve_target (s : ECState) (i : ℕ) :
    (computeFramesForCurve s i).target = s.target := by
  cases h : s.curves[i]? <;> unfold computeFramesForCurve <;>
    simp [h, recalcUValues_target]

lemma computeFramesForCurve_uStart (s : ECState) (i : ℕ) :
    (computeFramesForCurve s i).uStart = s.uStart := by
  cases h : s.curves[i]? <;> unfold computeFramesForCurve <;>
    simp [h, recalcUValues_uStart]

lemma computeFramesForCurve_uLength (s : ECState) (i : ℕ) :
    (computeFramesForCurve s i).uLength = s.uLength := by
  cases h : s.curves[i]? <;> unfold computeFramesForCurve <;>
    simp [h, recalcUValues_uLength]

lemma addCurve_curves (s : ECState) (seg : Seg) :
    (addCurve s seg).curves = s.curves ++ [seg] := by
  unfold addCurve
  rw [computeFramesForCurve_curves]

lemma addCurve_distanceOffset (s : ECState) (seg : Seg) :
    (addCurve s seg).distanceOffset = s.distanceOffset := by
  unfold addCurve
  rw [computeFramesForCurve_distanceOffset]

lemma addCurve_gen (s : ECState) (seg : Seg) : (addCurve s seg).gen = s.gen := by
  unfold addCurve
  rw [computeFramesForCurve_gen]

lemma addCurve_genIdx (s : ECState) (seg : Seg) : (addCurve s seg).genIdx = s.genIdx := by
  unfold addCurve
  rw [computeFramesForCurve_genIdx]

lemma addCurve_target (s : ECState) (seg : Seg) : (addCurve s seg).target = s.target := by
  unfold addCurve
  rw [computeFramesForCurve_target]

lemma addCurve_uStart (s : ECState) (seg : Seg) : (addCurve s seg).uStart = s.uStart := by
  unfold addCurve
  rw [computeFramesForCurve_uStart]

lemma addCurve_uLength (s : ECState) (seg : Seg) : (addCurve s seg).uLength = s.uLength := by
  unfold addCurve
  rw [computeFramesForCurve_uLength]

lemma totalLen_addCurve (s : ECState) (seg : Seg) :
    totalLen (addCurve s seg) = totalLen s + seg.len := by
  unfold totalLen
  rw [addCurve_curves]
  simp

/-- `addCurve` appends exactly `samplesPerCurve + 1` normals. -/
lemma addCurve_normals_length (s : ECState) (seg : Seg) :
    (addCurve s seg).normals.length = s.normals.length + (samplesPerCurve + 1) := by
  unfold addCurve computeFramesForCurve
  rw [List.getElem?_concat_length]
  simp [recalcUValues_normals, ptfSamples_fst_length]

/-- `addCurve` appends exactly `samplesPerCurve + 1` u-values. -/
lemma addCurve_uValues_length (s : ECState) (seg : Seg) :
    (addCurve s seg).uValues.length = s.uValues.length + (samplesPerCurve + 1) := by
  unfold addCurve computeFramesForCurve
  rw [List.getElem?_concat_length]
  simp [recalcUValues_uValues_length]

lemma cumFrom_getLastD_sum (d acc : ℚ) (ls : List ℚ) (h : ls ≠ []) :
    (cumFrom acc ls).getLastD d = acc + ls.sum := by
  induction ls generalizing acc d with
  | nil => exact absurd rfl h
  | cons l ls ih =>
    cases ls with
    | nil => simp [cumFrom]
    | cons m ms =>
      rw [show cumFrom acc (l :: m :: ms) = (acc + l) :: cumFrom (acc + l) (m :: ms)
          from rfl,
        List.getLastD_cons, ih (acc + l) (acc + l) (by simp)]
      simp only [List.sum_cons]
      ring

lemma removeCurvesBefore_curves (s : ECState) (position : ℚ) :
    (removeCurvesBefore s position).curves = s.curves.drop (evictCount s position) := by
  simp only [removeCurvesBefore, evictCount, localDistance]
  split
  · next h => rw [h, List.drop_zero]
  · rw [recalcUValues_curves]

lemma removeCurvesBefore_distanceOffset (s : ECState) (position : ℚ) :
    (removeCurvesBefore s position).distanceOffset =
      s.distanceOffset + ((s.curves.map Seg.len).take (evictCount s position)).sum := by
  simp only [removeCurvesBefore, evictCount, localDistance, getCurveLengths]
  split
  · next h => rw [h]; simp
  · rw [recalcUValues_distanceOffset]
    have := cumFrom_takeWhile_getLastD (position - s.distanceOffset) 0 (s.curves.map Seg.len)
    simp only [zero_add] at this
    simp only [this]

lemma removeCurvesBefore_normals (s : ECState) (position : ℚ) :
    (removeCurvesBefore s position).normals =
      s.normals.drop (evictCount s position * (samplesPerCurve + 1)) := by
  simp only [removeCurvesBefore, evictCount, localDistance]
  split
  · next h => rw [h, zero_mul, List.drop_zero]
  · rw [recalcUValues_normals]

lemma removeCurvesBefore_uValues_length (s : ECState) (position : ℚ) :
    (removeCurvesBefore s position).uValues.length =
      s.uValues.length - evictCount s position * (samplesPerCurve + 1) := by
  simp only [removeCurvesBefore, evictCount, localDistance]
  split
  · next h => rw [h, zero_mul, Nat.sub_zero]
  · rw [recalcUValues_uValues_length]
    simp

lemma removeCurvesBefore_gen (s : ECState) (position : ℚ) :
    (removeCurvesBefore s position).gen = s.gen := by
  simp only [removeCurvesBefore]
  split
  · rfl
  · rw [recalcUValues_gen]

lemma removeCurvesBefore_genIdx (s : ECState) (position : ℚ) :
    (removeCurvesBefore s position).genIdx = s.genIdx := by
  simp only [removeCurvesBefore]
  split
  · rfl
  · rw [recalcUValues_genIdx]

lemma removeCurvesBefore_target (s : ECState) (position : ℚ) :
    (removeCurvesBefore s position).target = s.target := by
  simp only [removeCurvesBefore]
  split
  · rfl
  · rw [recalcUValues_target]

lemma removeCurvesBefore_uStart (s : ECState) (position : ℚ) :
    (removeCurvesBefore s position).uStart = s.uStart := by
  simp only [removeCurvesBefore]
  split
  · rfl
  · rw [recalcUValues_uStart]

lemma removeCurvesBefore_uLength (s : ECState) (position : ℚ) :
    (removeCurvesBefore s position).uLength = s.uLength := by
  simp only [removeCurvesBefore]
  split
  · rfl
  · rw [recalcUValues_uLength]

lemma evictCount_le (s : ECState) (position : ℚ) :
    evictCount s position ≤ s.curves.length := by
  unfold evictCount
  calc ((getCurveLengths s).takeWhile _).length
      ≤ (getCurveLengths s).length := (List.takeWhile_sublist _).length_le
    _ = s.curves.length := by
        unfold getCurveLengths
        rw [cumFrom_length, List.length_map]

/-- With nonnegative segment lengths, the eviction loop removes exactly the
segments whose cumulative arclength is at or before the local position. -/
lemma evictCount_eq_countP (s : ECState) (position : ℚ)
    (hnn : ∀ seg ∈ s.curves, 0 ≤ seg.len) :
    evictCount s position =
      (getCurveLengths s).countP (fun L => decide (L ≤ position - s.distanceOffset)) := by
  unfold evictCount getCurveLengths
  apply cumFrom_takeWhile_length
  intro l hl
  obtain ⟨seg, hseg, rfl⟩ := List.mem_map.mp hl
  exact hnn seg hseg

/-- When the cache extends strictly beyond the local position, the eviction
loop keeps at least the most recent segment. -/
lemma evictCount_lt (s : ECState) (position : ℚ) (hne : s.curves ≠ [])
    (h : position - s.distanceOffset < totalLen s) :
    evictCount s position < s.curves.length := by
  rcases lt_or_eq_of_le (evictCount_le s position) with hlt | heq
  · exact hlt
  · exfalso
    have hcum_len : (getCurveLengths s).length = s.curves.length := by
      unfold getCurveLengths
      rw [cumFrom_length, List.length_map]
    have hpref : (getCurveLengths s).takeWhile
        (fun L => decide (L ≤ position - s.distanceOffset)) = getCurveLengths s := by
      apply List.IsPrefix.eq_of_length ( List.takeWhile_prefix _)
      rw [hcum_len]
      exact heq
    have hcne : getCurveLengths s ≠ [] := by
      intro hc
      have hz : (getCurveLengths s).length = 0 := by rw [hc]; rfl
      rw [hcum_len] at hz
      exact hne (List.length_eq_zero.mp hz)
    have hlast := List.getLast_mem hcne
    have hmem : (getCurveLengths s).getLast hcne ∈
        (getCurveLengths s).takeWhile (fun L => decide (L ≤ position - s.distanceOffset)) := by
      rw [hpref]
      exact hlast
    have hle := List.mem_takeWhile_imp hmem
    simp only [decide_eq_true_eq] at hle
    have hlast_eq : (getCurveLengths s).getLast hcne = totalLen s := by
      have hmap : s.curves.map Seg.len ≠ [] := by
        simpa using hne
      have := cumFrom_getLastD_sum 0 0 (s.curves.map Seg.len) hmap
      unfold getCurveLengths at *
      rw [List.getLastD_eq_getLast?, List.getLast?_eq_getLast _ hcne] at this
      simp only [Option.getD_some] at this
      rw [this]
      unfold totalLen
      ring
    rw [hlast_eq] at hle
    linarith

/-! ### `fillLength` lemmas -/

lemma fillLength_distanceOffset (fuel : ℕ) (s : ECState) (L : ℚ) :
    (fillLength fuel s L).distanceOffset = s.distanceOffset := by
  induction fuel generalizing s with
  | zero => rfl
  | succ n ih =>
    unfold fillLength
    split
    · rfl
    · rw [ih, addCurve_distanceOffset]

lemma fillLength_gen (fuel : ℕ) (s : ECState) (L : ℚ) :
    (fillLength fuel s L).gen = s.gen := by
  induction fuel generalizing s with
  | zero => rfl
  | succ n ih =>
    unfold fillLength
    split
    · rfl
    · rw [ih, addCurve_gen]

lemma fillLength_target (fuel : ℕ) (s : ECState) (L : ℚ) :
    (fillLength fuel s L).target = s.target := by
  induction fuel generalizing s with
  | zero => rfl
  | succ n ih =>
    unfold fillLength
    split
    · rfl
    · rw [ih, addCurve_target]

lemma fillLength_uStart (fuel : ℕ) (s : ECState) (L : ℚ) :
    (fillLength fuel s L).uStart = s.uStart := by
  induction fuel generalizing s with
  | zero => rfl
  | succ n ih =>
    unfold fillLength
    split
    · rfl
    · rw [ih, addCurve_uStart]

lemma fillLength_uLength (fuel : ℕ) (s : ECState) (L : ℚ) :
    (fillLength fuel s L).uLength = s.uLength := by
  induction fuel generalizing s with
  | zero => rfl
  | succ n ih =>
    unfold fillLength
    split
    · rfl
    · rw [ih, addCurve_uLength]

/-- When the guard is already satisfied, `fillLength` is the identity for
any fuel. -/
lemma fillLength_of_guard (fuel : ℕ) (s : ECState) (L : ℚ)
    (h : localDistance s L < getLengthSafe s) : fillLength fuel s L = s := by
  cases fuel with
  | zero => rfl
  | succ n =>
    unfold fillLength
    rw [if_pos h]

/-- Each segment the generator emits lengthens the cache by at least `δ`,
so `fillLength` reaches its guard within `⌈(needed length)/δ⌉` steps: with
that much fuel the returned cache strictly exceeds the requested local
distance. -/
lemma fillLength_reaches (L δ : ℚ) (hδ : 0 < δ) :
    ∀ (fuel : ℕ) (s : ECState),
      (∀ i t, δ ≤ (s.gen i t).len) →
      localDistance s L - totalLen s < (fuel : ℚ) * δ →
      localDistance (fillLength fuel s L) L < getLengthSafe (fillLength fuel s L) := by
  intro fuel
  induction fuel with
  | zero =>
    intro s _ h
    simp only [fillLength]
    rw [getLengthSafe_eq]
    simp only [Nat.cast_zero, zero_mul] at h
    linarith
  | succ n ih =>
    intro s hgen h
    unfold fillLength
    split
    · next hguard => exact hguard
    · apply ih
      · intro i t
        rw [addCurve_gen]
        exact hgen i t
      · have hlen : δ ≤ (s.gen s.genIdx s.target).len := hgen _ _
        simp only [localDistance] at h ⊢
        rw [addCurve_distanceOffset, totalLen_addCurve]
        push_cast at h ⊢
        have htot : totalLen { s with genIdx := s.genIdx + 1 } = totalLen s := rfl
        rw [htot]
        linarith

/-- Extra fuel beyond what reaches the guard does not change the result. -/
lemma fillLength_fuel_add (L δ : ℚ) (hδ : 0 < δ) :
    ∀ (fuel extra : ℕ) (s : ECState),
      (∀ i t, δ ≤ (s.gen i t).len) →
      localDistance s L - totalLen s < (fuel : ℚ) * δ →
      fillLength (fuel + extra) s L = fillLength fuel s L := by
  intro fuel
  induction fuel with
  | zero =>
    intro extra s _ h
    simp only [Nat.cast_zero, zero_mul] at h
    have hg : localDistance s L < getLengthSafe s := by
      rw [getLengthSafe_eq]; linarith
    rw [fillLength_of_guard (0 + extra) s L hg, fillLength_of_guard 0 s L hg]
  | succ n ih =>
    intro extra s hgen h
    have hsh : n + 1 + extra = (n + extra) + 1 := by omega
    rw [hsh]
    unfold fillLength
    split
    · rfl
    · apply ih
      · intro i t
        rw [addCurve_gen]
        exact hgen i t
      · have hlen : δ ≤ (s.gen s.genIdx s.target).len := hgen _ _
        simp only [localDistance] at h ⊢
        rw [addCurve_distanceOffset, totalLen_addCurve]
        push_cast at h ⊢
        have htot : totalLen { s with genIdx := s.genIdx + 1 } = totalLen s := rfl
        rw [htot]
        linarith

/-! ### Cache alignment -/

lemma cacheAligned_initial (gen : ℕ → Option Vec3 → Seg) :
    cacheAligned (initialState gen) := by
  simp [cacheAligned, initialState]

lemma cacheAligned_addCurve (s : ECState) (seg : Seg) (h : cacheAligned s) :
    cacheAligned (addCurve s seg) := by
  obtain ⟨h1, h2⟩ := h
  refine ⟨?_, ?_⟩
  · rw [addCurve_normals_length, addCurve_uValues_length, h1]
  · rw [addCurve_normals_length, addCurve_curves, List.length_append, h2]
    simp [Nat.add_mul]

lemma cacheAligned_removeCurvesBefore (s : ECState) (position : ℚ)
    (h : cacheAligned s) : cacheAligned (removeCurvesBefore s position) := by
  obtain ⟨h1, h2⟩ := h
  have hk := evictCount_le s position
  refine ⟨?_, ?_⟩
  · rw [removeCurvesBefore_normals, removeCurvesBefore_uValues_length,
      List.length_drop, h1]
  · rw [removeCurvesBefore_normals, removeCurvesBefore_curves,
      List.length_drop, List.length_drop, h2, Nat.sub_mul]

lemma cacheAligned_fillLength (fuel : ℕ) (s : ECState) (L : ℚ)
    (h : cacheAligned s) : cacheAligned (fillLength fuel s L) := by
  induction fuel generalizing s with
  | zero => exact h
  | succ n ih =>
    unfold fillLength
    split
    · exact h
    · exact ih _ (cacheAligned_addCurve _ _ h)

/-- **C7**: the frame cache keeps its two sequences index-aligned with
`len(normals) = len(uValues) = segmentCount * (samplesPerCurve + 1)`: the
invariant holds initially and every completed `addCurve` (which appends one
block of `samplesPerCurve + 1` samples to both sequences) and every
completed `removeCurvesBefore` (which drops whole such blocks) preserves
it. -/
theorem c7_cache_alignment (gen : ℕ → Option Vec3 → Seg) (s : ECState)
    (seg : Seg) (position : ℚ) (h : cacheAligned s) :
    cacheAligned (initialState gen) ∧
      cacheAligned (addCurve s seg) ∧
      cacheAligned (removeCurvesBefore s position) :=
  ⟨cacheAligned_initial gen, cacheAligned_addCurve s seg h,
    cacheAligned_removeCurvesBefore s position h⟩

theorem c7_cache_alignment_witness :
    cacheAligned (initialState exGen) ∧
      cacheAligned (addCurve (initialState exGen) exSeg) ∧
      cacheAligned (removeCurvesBefore (initialState exGen) 20) :=
  c7_cache_alignment exGen (initialState exGen) exSeg 20
    (by simp [cacheAligned, initialState])

/-- **C8**: `setTarget` only replaces the stored target: the segment list,
frame cache, `distanceOffset`, `uStart`, `uLength`, generator and its call
index are all untouched, and the next `fillLength` step hands the new
target to the generator closure exactly once per emitted segment — already
generated segments are not revisited. -/
theorem c8_setTarget_pure (s : ECState) (t : Vec3) :
    (setTarget s t).target = some t ∧
      (setTarget s t).curves = s.curves ∧
      (setTarget s t).normals = s.normals ∧
      (setTarget s t).uValues = s.uValues ∧
      (setTarget s t).lastNormal = s.lastNormal ∧
      (setTarget s t).distanceOffset = s.distanceOffset ∧
      (setTarget s t).uStart = s.uStart ∧
      (setTarget s t).uLength = s.uLength ∧
      (setTarget s t).gen = s.gen ∧
      (setTarget s t).genIdx = s.genIdx ∧
      ∀ fuel L, fillLength (fuel + 1) (setTarget s t) L =
        if localDistance (setTarget s t) L < getLengthSafe (setTarget s t) then
          setTarget s t
        else
          fillLength fuel
            (addCurve { s with target := some t, genIdx := s.genIdx + 1 }
              (s.gen s.genIdx (some t))) L :=
  ⟨rfl, rfl, rfl, rfl, rfl, rfl, rfl, rfl, rfl, rfl, fun _ _ => rfl⟩

/-- **C10**: `fillLength` terminates whenever every generated segment has
arclength at least `δ > 0` (as `segmentLength.min > 0` guarantees): each
recursive step grows the cached length by at least `δ`, so fuel covering
`(requested local length − current length)/δ` reaches the guard
`localDistance < currentLength`, and any additional fuel leaves the result
unchanged. -/
theorem c10_fillLength_terminates (s : ECState) (L δ : ℚ) (fuel : ℕ)
    (hδ : 0 < δ) (hgen : ∀ i t, δ ≤ (s.gen i t).len)
    (hfuel : localDistance s L - totalLen s < (fuel : ℚ) * δ) :
    localDistance (fillLength fuel s L) L < getLengthSafe (fillLength fuel s L) ∧
      ∀ extra, fillLength (fuel + extra) s L = fillLength fuel s L :=
  ⟨fillLength_reaches L δ hδ fuel s hgen hfuel,
    fun extra => fillLength_fuel_add L δ hδ fuel extra s hgen hfuel⟩

theorem c10_fillLength_terminates_witness :
    localDistance (fillLength 4 (initialState exGen) 20) 20 <
        getLengthSafe (fillLength 4 (initialState exGen) 20) ∧
      ∀ extra, fillLength (4 + extra) (initialState exGen) 20 =
        fillLength 4 (initialState exGen) 20 :=
  c10_fillLength_terminates (initialState exGen) 20 6 4 (by norm_num)
    (fun i t => by norm_num [initialState, exGen, exSeg])
    (by norm_num [initialState, localDistance, totalLen])

/-- **C3**: `removeCurvesBefore position` removes exactly the whole leading
segments whose cumulative arclength is at or before the local window start
`position − distanceOffset`, drops their blocks of `samplesPerCurve + 1`
cached frame samples from both cache sequences, and grows `distanceOffset`
by exactly the summed arclength of the removed segments. -/
theorem c3_eviction (s : ECState) (position : ℚ)
    (hnn : ∀ seg ∈ s.curves, 0 ≤ seg.len) :
    (removeCurvesBefore s position).curves =
      s.curves.drop ((getCurveLengths s).countP
        (fun L => decide (L ≤ position - s.distanceOffset))) ∧
    (removeCurvesBefore s position).normals =
      s.normals.drop ((getCurveLengths s).countP
        (fun L => decide (L ≤ position - s.distanceOffset)) * (samplesPerCurve + 1)) ∧
    (removeCurvesBefore s position).uValues.length =
      s.uValues.length - (getCurveLengths s).countP
        (fun L => decide (L ≤ position - s.distanceOffset)) * (samplesPerCurve + 1) ∧
    (removeCurvesBefore s position).distanceOffset =
      s.distanceOffset + ((s.curves.map Seg.len).take ((getCurveLengths s).countP
        (fun L => decide (L ≤ position - s.distanceOffset)))).sum := by
  have hk := evictCount_eq_countP s position hnn
  rw [← hk]
  exact ⟨removeCurvesBefore_curves s position, removeCurvesBefore_normals s position,
    removeCurvesBefore_uValues_length s position,
    removeCurvesBefore_distanceOffset s position⟩

theorem c3_eviction_witness :
    (removeCurvesBefore ex5State 20).distanceOffset = 18 ∧
      (removeCurvesBefore ex5State 20).curves.length = 2 ∧
      (removeCurvesBefore ex5State 20).normals.length = 22 ∧
      (removeCurvesBefore ex5State 20).uValues.length = 22 := by
  have h := c3_eviction ex5State 20 (by
    intro seg hseg
    have hs : seg = exSeg := by simpa [ex5State] using hseg
    rw [hs]
    norm_num [exSeg])
  obtain ⟨hc, hn, hu, ho⟩ := h
  have hcum : getCurveLengths ex5State = [6, 12, 18, 24, 30] := by
    norm_num [getCurveLengths, ex5State, exSeg, cumFrom, List.replicate]
  have hcount : (getCurveLengths ex5State).countP
      (fun L => decide (L ≤ (20 : ℚ) - ex5State.distanceOffset)) = 3 := by
    rw [hcum]
    norm_num [List.countP_cons, List.countP_nil, ex5State]
  rw [hcount] at hc hn hu ho
  refine ⟨?_, ?_, ?_, ?_⟩
  · rw [ho]
    norm_num [ex5State, exSeg, List.replicate]
  · rw [hc]
    simp [ex5State]
  · rw [hn]
    simp [ex5State, samplesPerCurve]
  · rw [hu]
    simp [ex5State, samplesPerCurve]

/-- `fillLength` does nothing on the empty initial cache when the requested
length is already behind: the guard `-1 < 0` is met at once. -/
lemma ex_fill_neg : fillLength 1 (initialState exGen) (-1 + 0) = initialState exGen := by
  apply fillLength_of_guard
  norm_num [localDistance, getLengthSafe, initialState]

lemma removeCurvesBefore_of_evictCount_zero (s : ECState) (position : ℚ)
    (h : evictCount s position = 0) : removeCurvesBefore s position = s := by
  simp only [removeCurvesBefore, evictCount, localDistance] at *
  rw [if_pos h]

lemma ex_rcb_neg : removeCurvesBefore (initialState exGen) (-1) = initialState exGen := by
  apply removeCurvesBefore_of_evictCount_zero
  simp [evictCount, getCurveLengths, initialState, cumFrom]

/-- **C4 counterexample**: calling `configureStartEnd (-1) 0` on a fresh
manager leaves the total cached length at zero, yet `uLength` is set to `1`,
not `0` as the claim states. -/
theorem c4_counterexample :
    getLengthSafe (removeCurvesBefore (fillLength 1 (initialState exGen) (-1 + 0)) (-1)) = 0 ∧
      (configureStartEnd 1 (initialState exGen) (-1) 0).uLength = 1 ∧
      (configureStartEnd 1 (initialState exGen) (-1) 0).uLength ≠ 0 := by
  have h0 : getLengthSafe (initialState exGen) = 0 := by
    simp [getLengthSafe, initialState]
  refine ⟨?_, ?_, ?_⟩
  · rw [ex_fill_neg, ex_rcb_neg, h0]
  · simp only [configureStartEnd, ex_fill_neg, ex_rcb_neg, h0]
    norm_num
  · simp only [configureStartEnd, ex_fill_neg, ex_rcb_neg, h0]
    norm_num

/-- **C4 (amended)**: when the post-fill, post-evict cache has no positive
total length, `configureStartEnd` guards the divisions and sets `uStart` to
`0` and `uLength` to `1` (not `0`); with a positive total it sets
`uStart = (position − distanceOffset)/totalLength` and
`uLength = length/totalLength`. -/
theorem c4_window_guard (fuel : ℕ) (s : ECState) (position length : ℚ) :
    (getLengthSafe (removeCurvesBefore (fillLength fuel s (position + length)) position) ≤ 0 →
      (configureStartEnd fuel s position length).uStart = 0 ∧
      (configureStartEnd fuel s position length).uLength = 1) ∧
    (0 < getLengthSafe (removeCurvesBefore (fillLength fuel s (position + length)) position) →
      (configureStartEnd fuel s position length).uStart =
        (position -
          (removeCurvesBefore (fillLength fuel s (position + length)) position).distanceOffset) /
          getLengthSafe (removeCurvesBefore (fillLength fuel s (position + length)) position) ∧
      (configureStartEnd fuel s position length).uLength =
        length /
          getLengthSafe (removeCurvesBefore (fillLength fuel s (position + length)) position)) := by
  constructor
  · intro h
    simp only [configureStartEnd, localDistance]
    rw [if_neg (by linarith), if_neg (by linarith)]
    exact ⟨rfl, rfl⟩
  · intro h
    simp only [configureStartEnd, localDistance]
    rw [if_pos h, if_pos h]
    exact ⟨rfl, rfl⟩

theorem c4_window_guard_witness :
    (configureStartEnd 1 (initialState exGen) (-1) 0).uStart = 0 ∧
      (configureStartEnd 1 (initialState exGen) (-1) 0).uLength = 1 :=
  (c4_window_guard 1 (initialState exGen) (-1) 0).1
    (by rw [ex_fill_neg, ex_rcb_neg]; simp [getLengthSafe, initialState])

/-! ### Window monotonicity (C5) -/

lemma configureStartEnd_distanceOffset_eq (fuel : ℕ) (s : ECState) (p l : ℚ) :
    (configureStartEnd fuel s p l).distanceOffset =
      (removeCurvesBefore (fillLength fuel s (p + l)) p).distanceOffset := rfl

lemma configureStartEnd_curves_eq (fuel : ℕ) (s : ECState) (p l : ℚ) :
    (configureStartEnd fuel s p l).curves =
      (removeCurvesBefore (fillLength fuel s (p + l)) p).curves := rfl

lemma configureStartEnd_gen (fuel : ℕ) (s : ECState) (p l : ℚ) :
    (configureStartEnd fuel s p l).gen = s.gen := by
  rw [show (configureStartEnd fuel s p l).gen =
      (removeCurvesBefore (fillLength fuel s (p + l)) p).gen from rfl,
    removeCurvesBefore_gen, fillLength_gen]

lemma fillLength_curves_nonneg (fuel : ℕ) (s : ECState) (L : ℚ)
    (hnn : ∀ seg ∈ s.curves, 0 ≤ seg.len)
    (hgen : ∀ i t, 0 ≤ (s.gen i t).len) :
    ∀ seg ∈ (fillLength fuel s L).curves, 0 ≤ seg.len := by
  induction fuel generalizing s with
  | zero => exact hnn
  | succ n ih =>
    unfold fillLength
    split
    · exact hnn
    · apply ih
      · intro seg hseg
        rw [addCurve_curves] at hseg
        rcases List.mem_append.mp hseg with h | h
        · exact hnn seg h
        · rw [List.mem_singleton.mp h]
          exact hgen _ _
      · intro i t
        rw [addCurve_gen]
        exact hgen i t

lemma removeCurvesBefore_curves_nonneg (s : ECState) (position : ℚ)
    (hnn : ∀ seg ∈ s.curves, 0 ≤ seg.len) :
    ∀ seg ∈ (removeCurvesBefore s position).curves, 0 ≤ seg.len := by
  intro seg hseg
  rw [removeCurvesBefore_curves] at hseg
  exact hnn seg (List.mem_of_mem_drop hseg)

lemma configureStartEnd_curves_nonneg (fuel : ℕ) (s : ECState) (p l : ℚ)
    (hnn : ∀ seg ∈ s.curves, 0 ≤ seg.len)
    (hgen : ∀ i t, 0 ≤ (s.gen i t).len) :
    ∀ seg ∈ (configureStartEnd fuel s p l).curves, 0 ≤ seg.len := by
  rw [configureStartEnd_curves_eq]
  exact removeCurvesBefore_curves_nonneg _ _
    (fillLength_curves_nonneg fuel s (p + l) hnn hgen)

/-- Eviction can only grow `distanceOffset`, and never past `position`
(unless it was already larger, in which case it is left unchanged). -/
lemma removeCurvesBefore_offset_bounds (s : ECState) (position : ℚ)
    (hnn : ∀ seg ∈ s.curves, 0 ≤ seg.len) :
    s.distanceOffset ≤ (removeCurvesBefore s position).distanceOffset ∧
      (removeCurvesBefore s position).distanceOffset ≤ max s.distanceOffset position := by
  have hoff := removeCurvesBefore_distanceOffset s position
  have hsum_nonneg : 0 ≤ ((s.curves.map Seg.len).take (evictCount s position)).sum :=
    List.sum_nonneg (fun x hx => by
      obtain ⟨seg, hseg, rfl⟩ := List.mem_map.mp (List.mem_of_mem_take hx)
      exact hnn seg hseg)
  refine ⟨by rw [hoff]; linarith, ?_⟩
  by_cases hk : evictCount s position = 0
  · rw [hoff, hk]
    simp [le_max_left]
  · have hpref_ne : (getCurveLengths s).takeWhile
        (fun L => decide (L ≤ position - s.distanceOffset)) ≠ [] := by
      intro hcon
      apply hk
      unfold evictCount
      rw [hcon]
      rfl
    have hlast_mem : ((getCurveLengths s).takeWhile
        (fun L => decide (L ≤ position - s.distanceOffset))).getLastD 0 ∈
        (getCurveLengths s).takeWhile (fun L => decide (L ≤ position - s.distanceOffset)) := by
      rw [List.getLastD_eq_getLast?, List.getLast?_eq_getLast _ hpref_ne]
      exact List.getLast_mem hpref_ne
    have hle := List.mem_takeWhile_imp hlast_mem
    simp only [decide_eq_true_eq] at hle
    have hsum := cumFrom_takeWhile_getLastD (position - s.distanceOffset) 0
      (s.curves.map Seg.len)
    simp only [zero_add] at hsum
    unfold getCurveLengths at hle
    rw [hsum] at hle
    rw [hoff]
    unfold evictCount getCurveLengths
    refine le_trans ?_ (le_max_right s.distanceOffset position)
    linarith

lemma configureStartEnd_offset_bounds (fuel : ℕ) (s : ECState) (p l : ℚ)
    (hnn : ∀ seg ∈ s.curves, 0 ≤ seg.len)
    (hgen : ∀ i t, 0 ≤ (s.gen i t).len) :
    s.distanceOffset ≤ (configureStartEnd fuel s p l).distanceOffset ∧
      (configureStartEnd fuel s p l).distanceOffset ≤ max s.distanceOffset p := by
  have hfo : (fillLength fuel s (p + l)).distanceOffset = s.distanceOffset :=
    fillLength_distanceOffset fuel s (p + l)
  have h := removeCurvesBefore_offset_bounds (fillLength fuel s (p + l)) p
    (fillLength_curves_nonneg fuel s (p + l) hnn hgen)
  rw [hfo] at h
  rw [configureStartEnd_distanceOffset_eq]
  exact h

lemma offsetTrace_spec (fuel : ℕ) (calls : List (ℚ × ℚ)) :
    ∀ s : ECState,
      (∀ seg ∈ s.curves, 0 ≤ seg.len) →
      (∀ i t, 0 ≤ (s.gen i t).len) →
      (∀ c ∈ calls.head?, s.distanceOffset ≤ c.1) →
      List.Chain' (fun a b => a.1 ≤ b.1) calls →
      List.Chain' (· ≤ ·) (s.distanceOffset :: offsetTrace fuel s calls) ∧
        List.Forall₂ (fun off c => off ≤ c.1) (offsetTrace fuel s calls) calls := by
  induction calls with
  | nil =>
    intro s _ _ _ _
    exact ⟨List.chain'_singleton _, List.Forall₂.nil⟩
  | cons c rest ih =>
    intro s hnn hgen hhead hmono
    have hbounds := configureStartEnd_offset_bounds fuel s c.1 c.2 hnn hgen
    have hle_pos : (configureStartEnd fuel s c.1 c.2).distanceOffset ≤ c.1 := by
      refine le_trans hbounds.2 (max_le ?_ le_rfl)
      exact hhead c rfl
    obtain ⟨hmono_head, hmono_rest⟩ := List.chain'_cons'.mp hmono
    have ihres := ih (configureStartEnd fuel s c.1 c.2)
      (configureStartEnd_curves_nonneg fuel s c.1 c.2 hnn hgen)
      (by
        intro i t
        rw [configureStartEnd_gen]
        exact hgen i t)
      (by
        intro d hd
        exact le_trans hle_pos (hmono_head d hd))
      hmono_rest
    constructor
    · rw [offsetTrace]
      exact List.chain'_cons.mpr ⟨hbounds.1, ihres.1⟩
    · rw [offsetTrace]
      exact List.Forall₂.cons hle_pos ihres.2

/-- **C5 counterexample**: a single `configureStartEnd` call with the
(negative) position `-1` — a trivially non-decreasing position sequence —
leaves `distanceOffset` at `0`, which exceeds that call's `position`
argument. -/
theorem c5_counterexample :
    (configureStartEnd 1 (initialState exGen) (-1) 0).distanceOffset = 0 ∧
      ¬ ((configureStartEnd 1 (initialState exGen) (-1) 0).distanceOffset ≤ -1) := by
  have h : (configureStartEnd 1 (initialState exGen) (-1) 0).distanceOffset = 0 := by
    rw [configureStartEnd_distanceOffset_eq, ex_fill_neg, ex_rcb_neg]
    rfl
  refine ⟨h, ?_⟩
  rw [h]
  norm_num

/-- **C5 (amended)**: for every sequence of `configureStartEnd` calls from
the initial state whose positions are non-decreasing *and non-negative*
(and a generator emitting segments of nonnegative arclength),
`distanceOffset` is non-decreasing across the sequence and after each call
never exceeds that call's position argument. -/
theorem c5_offset_monotone (gen : ℕ → Option Vec3 → Seg) (fuel : ℕ)
    (calls : List (ℚ × ℚ))
    (hgen : ∀ i t, 0 ≤ (gen i t).len)
    (hpos : ∀ c ∈ calls, 0 ≤ c.1)
    (hmono : List.Chain' (fun a b => a.1 ≤ b.1) calls) :
    List.Chain' (· ≤ ·)
        ((initialState gen).distanceOffset :: offsetTrace fuel (initialState gen) calls) ∧
      List.Forall₂ (fun off c => off ≤ c.1) (offsetTrace fuel (initialState gen) calls) calls := by
  apply offsetTrace_spec fuel calls (initialState gen)
  · intro seg hseg
    simp [initialState] at hseg
  · exact hgen
  · intro c hc
    have : c ∈ calls := by
      cases calls with
      | nil => simp at hc
      | cons a l =>
        have hca : a = c := by simpa using hc
        rw [← hca]
        exact List.mem_cons_self a l
    have := hpos c this
    simp only [initialState]
    linarith
  · exact hmono

theorem c5_offset_monotone_witness :
    List.Chain' (· ≤ ·)
        ((initialState exGen).distanceOffset ::
          offsetTrace 5 (initialState exGen) ([(10, 5), (20, 5)] : List (ℚ × ℚ))) ∧
      List.Forall₂ (fun off (c : ℚ × ℚ) => off ≤ c.1)
        (offsetTrace 5 (initialState exGen) ([(10, 5), (20, 5)] : List (ℚ × ℚ)))
        ([(10, 5), (20, 5)] : List (ℚ × ℚ)) :=
  c5_offset_monotone exGen 5 ([(10, 5), (20, 5)] : List (ℚ × ℚ))
    (fun i t => by norm_num [exGen, exSeg])
    (by norm_num)
    (by norm_num)

/-! ### Non-empty segment list after `configureStartEnd` (C9) -/

lemma curves_ne_nil_of_totalLen_pos (s : ECState) (h : 0 < totalLen s) :
    s.curves ≠ [] := by
  intro hc
  rw [totalLen, hc] at h
  simp at h

/-- **C9**: a `configureStartEnd(position, length)` call with `length ≥ 0`
and `position + length ≥ distanceOffset` (and a generator of
`δ`-positive-length segments with sufficient fill fuel) returns with a
non-empty segment list and a non-empty frame cache: the fill makes the
cached length strictly exceed the requested local end, so eviction keeps
the most recent segment, and point/basis queries never reach the
empty-list fallback. -/
theorem c9_nonempty (fuel : ℕ) (s : ECState) (p l δ : ℚ)
    (hδ : 0 < δ) (hgen : ∀ i t, δ ≤ (s.gen i t).len)
    (hl : 0 ≤ l) (hpl : s.distanceOffset ≤ p + l)
    (halign : cacheAligned s)
    (hfuel : localDistance s (p + l) - totalLen s < (fuel : ℚ) * δ) :
    (configureStartEnd fuel s p l).curves ≠ [] ∧
      (configureStartEnd fuel s p l).normals ≠ [] := by
  have hguard : localDistance (fillLength fuel s (p + l)) (p + l) <
      getLengthSafe (fillLength fuel s (p + l)) :=
    fillLength_reaches (p + l) δ hδ fuel s hgen hfuel
  rw [getLengthSafe_eq] at hguard
  have hoff1 : (fillLength fuel s (p + l)).distanceOffset = s.distanceOffset :=
    fillLength_distanceOffset fuel s (p + l)
  have hloc_nonneg : 0 ≤ localDistance (fillLength fuel s (p + l)) (p + l) := by
    simp only [localDistance, hoff1]
    linarith
  have htot_pos : 0 < totalLen (fillLength fuel s (p + l)) :=
    lt_of_le_of_lt hloc_nonneg hguard
  have hne1 : (fillLength fuel s (p + l)).curves ≠ [] :=
    curves_ne_nil_of_totalLen_pos _ htot_pos
  have hplt : p - (fillLength fuel s (p + l)).distanceOffset <
      totalLen (fillLength fuel s (p + l)) := by
    simp only [localDistance] at hguard
    linarith
  have hk := evictCount_lt (fillLength fuel s (p + l)) p hne1 hplt
  have hcurves : (configureStartEnd fuel s p l).curves =
      (fillLength fuel s (p + l)).curves.drop (evictCount (fillLength fuel s (p + l)) p) := by
    rw [configureStartEnd_curves_eq, removeCurvesBefore_curves]
  constructor
  · rw [hcurves]
    intro hcon
    rw [List.drop_eq_nil_iff] at hcon
    omega
  · have halign2 : cacheAligned (removeCurvesBefore (fillLength fuel s (p + l)) p) :=
      cacheAligned_removeCurvesBefore _ p (cacheAligned_fillLength fuel s (p + l) halign)
    have hnormals_eq : (configureStartEnd fuel s p l).normals =
        (removeCurvesBefore (fillLength fuel s (p + l)) p).normals := rfl
    rw [hnormals_eq]
    intro hcon
    have h2 := halign2.2
    rw [hcon, removeCurvesBefore_curves, List.length_drop] at h2
    simp only [List.length_nil, samplesPerCurve] at h2
    omega

theorem c9_nonempty_witness :
    (configureStartEnd 3 (initialState exGen) 10 5).curves ≠ [] ∧
      (configureStartEnd 3 (initialState exGen) 10 5).normals ≠ [] :=
  c9_nonempty 3 (initialState exGen) 10 5 6 (by norm_num)
    (fun i t => by norm_num [initialState, exGen, exSeg])
    (by norm_num)
    (by norm_num [initialState])
    (by simp [cacheAligned, initialState])
    (by norm_num [initialState, localDistance, totalLen])

/-! ### Idempotence of `configureStartEnd` (C6) -/

/-- The element right after the prefix selected by `takeWhile` fails the
predicate — the defining property of the break in the eviction loop. -/
lemma takeWhile_stop {α : Type} (p : α → Bool) (l : List α) (x : α)
    (h : l[(l.takeWhile p).length]? = some x) : p x = false := by
  induction l with
  | nil => simp at h
  | cons a t ih =>
    by_cases hpa : p a
    · rw [List.takeWhile_cons_of_pos hpa] at h
      simp only [List.length_cons] at h
      rw [List.getElem?_cons_succ] at h
      exact ih h
    · rw [List.takeWhile_cons_of_neg hpa] at h
      simp only [List.length_nil, List.getElem?_cons_zero] at h
      have hxa : x = a := by simpa using h.symm
      rw [hxa]
      exact Bool.eq_false_iff.mpr (by simpa using hpa)

lemma cumFrom_getElem? (acc : ℚ) (ls : List ℚ) (j : ℕ) (h : j < ls.length) :
    (cumFrom acc ls)[j]? = some (acc + (ls.take (j + 1)).sum) := by
  induction ls generalizing acc j with
  | nil => simp at h
  | cons l t ih =>
    cases j with
    | zero => simp [cumFrom]
    | succ j' =>
      rw [show cumFrom acc (l :: t) = (acc + l) :: cumFrom (acc + l) t from rfl,
        List.getElem?_cons_succ, ih (acc + l) j' (by simpa using h)]
      simp only [List.take_succ_cons, List.sum_cons, Option.some.injEq]
      ring

lemma evictCount_empty (s : ECState) (position : ℚ) (h : s.curves = []) :
    evictCount s position = 0 := by
  unfold evictCount getCurveLengths
  rw [h]
  rfl

/-- The eviction loop, run again right after an eviction at the same
position, selects nothing: the first surviving segment's cumulative length
already exceeded the local position. -/
lemma evictCount_removeCurvesBefore_self (s : ECState) (position : ℚ) :
    evictCount (removeCurvesBefore s position) position = 0 := by
  by_cases hk0 : evictCount s position = 0
  · rw [removeCurvesBefore_of_evictCount_zero s position hk0]
    exact hk0
  · have hcurves2 := removeCurvesBefore_curves s position
    have hoff2 := removeCurvesBefore_distanceOffset s position
    by_cases hklen : evictCount s position < s.curves.length
    · -- survivors remain: the first survivor fails the predicate again
      have hn : evictCount s position < (s.curves.map Seg.len).length := by
        rw [List.length_map]
        exact hklen
      have hx : (getCurveLengths s)[evictCount s position]? =
          some (((s.curves.map Seg.len).take (evictCount s position + 1)).sum) := by
        unfold getCurveLengths
        rw [cumFrom_getElem? 0 _ _ hn]
        simp
      have hfail := takeWhile_stop
        (fun L => decide (L ≤ position - s.distanceOffset)) (getCurveLengths s) _ hx
      rw [decide_eq_false_iff_not] at hfail
      have hlens2 : (removeCurvesBefore s position).curves.map Seg.len =
          (s.curves.map Seg.len).drop (evictCount s position) := by
        rw [hcurves2, List.map_drop]
      obtain ⟨e0, rest, hsplit⟩ :
          ∃ e0 rest, (s.curves.map Seg.len).drop (evictCount s position) = e0 :: rest := by
        cases hd : (s.curves.map Seg.len).drop (evictCount s position) with
        | nil =>
          rw [List.drop_eq_nil_iff, List.length_map] at hd
          omega
        | cons e0 rest => exact ⟨e0, rest, rfl⟩
      have hsum_split : ((s.curves.map Seg.len).take (evictCount s position + 1)).sum =
          ((s.curves.map Seg.len).take (evictCount s position)).sum + e0 := by
        rw [List.take_add, hsplit]
        simp
      unfold evictCount getCurveLengths
      rw [hlens2, hsplit,
        show cumFrom 0 (e0 :: rest) = (0 + e0) :: cumFrom (0 + e0) rest from rfl,
        List.takeWhile_cons_of_neg]
      · rfl
      · simp only [decide_eq_true_eq, not_le]
        rw [hoff2]
        rw [hsum_split] at hfail
        push_neg at hfail
        linarith
    · -- everything was evicted: the new segment list is empty
      apply evictCount_empty
      rw [hcurves2]
      have : s.curves.length ≤ evictCount s position := not_lt.mp hklen
      rw [List.drop_eq_nil_iff]
      exact this

/-- Eviction preserves a strict cache surplus over any requested length. -/
lemma removeCurvesBefore_guard (s : ECState) (position L : ℚ)
    (h : L - s.distanceOffset < totalLen s) :
    L - (removeCurvesBefore s position).distanceOffset <
      totalLen (removeCurvesBefore s position) := by
  have hoff2 := removeCurvesBefore_distanceOffset s position
  have hcurves2 := removeCurvesBefore_curves s position
  have htot2 : totalLen (removeCurvesBefore s position) =
      totalLen s - ((s.curves.map Seg.len).take (evictCount s position)).sum := by
    unfold totalLen
    rw [hcurves2, List.map_drop]
    have hsplit : ((s.curves.map Seg.len).take (evictCount s position)).sum +
        ((s.curves.map Seg.len).drop (evictCount s position)).sum =
          (s.curves.map Seg.len).sum := by
      rw [← List.sum_append, List.take_append_drop]
    linarith
  rw [hoff2, htot2]
  linarith

/-- A state that `fillLength` and `removeCurvesBefore` leave in place and
whose window fields already hold the recomputed values is a fixed point of
`configureStartEnd`. -/
lemma configureStartEnd_fixed (fuel : ℕ) (t : ECState) (p l : ℚ)
    (hfill : fillLength fuel t (p + l) = t)
    (hrcb : removeCurvesBefore t p = t)
    (hu1 : t.uStart =
      (if getLengthSafe t > 0 then localDistance t p / getLengthSafe t else 0))
    (hu2 : t.uLength =
      (if getLengthSafe t > 0 then l / getLengthSafe t else 1)) :
    configureStartEnd fuel t p l = t := by
  simp only [configureStartEnd]
  rw [hfill, hrcb, ← hu1, ← hu2]

/-- **C6**: calling `configureStartEnd` twice in succession with identical
arguments leaves the whole manager state — segment list, frame cache,
`distanceOffset`, `uStart`, `uLength` — unchanged by the second call (it
generates and evicts nothing), so `getPointAtLocal` and `getBasisAtLocal`
agree at every fixed `u` after the first and after the second call. -/
theorem c6_idempotent (fuel1 fuel2 : ℕ) (s : ECState) (p l δ : ℚ)
    (hδ : 0 < δ) (hgen : ∀ i t, δ ≤ (s.gen i t).len)
    (hfuel : localDistance s (p + l) - totalLen s < (fuel1 : ℚ) * δ) :
    configureStartEnd fuel2 (configureStartEnd fuel1 s p l) p l =
        configureStartEnd fuel1 s p l ∧
      (∀ u : ℝ, getPointAtLocal (configureStartEnd fuel2 (configureStartEnd fuel1 s p l) p l) u =
        getPointAtLocal (configureStartEnd fuel1 s p l) u) ∧
      (∀ u : ℝ, getBasisAtLocal (configureStartEnd fuel2 (configureStartEnd fuel1 s p l) p l) u =
        getBasisAtLocal (configureStartEnd fuel1 s p l) u) := by
  have hguard1 : localDistance (fillLength fuel1 s (p + l)) (p + l) <
      totalLen (fillLength fuel1 s (p + l)) := by
    have := fillLength_reaches (p + l) δ hδ fuel1 s hgen hfuel
    rwa [getLengthSafe_eq] at this
  have hguard2 := removeCurvesBefore_guard (fillLength fuel1 s (p + l)) p (p + l)
    (by simpa [localDistance] using hguard1)
  have hfill2 : fillLength fuel2 (configureStartEnd fuel1 s p l) (p + l) =
      configureStartEnd fuel1 s p l := by
    apply fillLength_of_guard
    rw [getLengthSafe_eq]
    exact hguard2
  have hrcb2 : removeCurvesBefore (configureStartEnd fuel1 s p l) p =
      configureStartEnd fuel1 s p l := by
    apply removeCurvesBefore_of_evictCount_zero
    exact evictCount_removeCurvesBefore_self (fillLength fuel1 s (p + l)) p
  have hstate : configureStartEnd fuel2 (configureStartEnd fuel1 s p l) p l =
      configureStartEnd fuel1 s p l :=
    configureStartEnd_fixed fuel2 (configureStartEnd fuel1 s p l) p l hfill2 hrcb2 rfl rfl
  exact ⟨hstate, fun u => by rw [hstate], fun u => by rw [hstate]⟩

theorem c6_idempotent_witness :
    configureStartEnd 7 (configureStartEnd 3 (initialState exGen) 10 5) 10 5 =
        configureStartEnd 3 (initialState exGen) 10 5 ∧
      (∀ u : ℝ, getPointAtLocal
          (configureStartEnd 7 (configureStartEnd 3 (initialState exGen) 10 5) 10 5) u =
        getPointAtLocal (configureStartEnd 3 (initialState exGen) 10 5) u) ∧
      (∀ u : ℝ, getBasisAtLocal
          (configureStartEnd 7 (configureStartEnd 3 (initialState exGen) 10 5) 10 5) u =
        getBasisAtLocal (configureStartEnd 3 (initialState exGen) 10 5) u) :=
  c6_idempotent 3 7 (initialState exGen) 10 5 6 (by norm_num)
    (fun i t => by norm_num [initialState, exGen, exSeg])
    (by norm_num [initialState, localDistance, totalLen])

/-! ### Parallel-transport continuity across segment boundaries (C2) -/

/-- Nearly parallel tangents make `parallelTransport` return the previous
normal unchanged; in particular equal unit-length tangents do. -/
lemma parallelTransport_self (n t : Vec3) (hu : (0.9999 : ℝ) < t.lengthSq) :
    parallelTransport n t t = n := by
  simp only [parallelTransport, Vec3.dot_self]
  rw [if_pos hu]

/-- **C2**: appending a segment whose analytic entry tangent equals the
previous segment's analytic exit tangent (as the generator guarantees)
seeds the new segment's parallel transport from the stored exit normal, so
the cached frame normal at the first sample (`u = 0`) of the new segment
equals the cached normal at the last sample (`u = 1`) of the previous
segment — exactly, hence within any floating tolerance. -/
theorem c2_normal_continuity (s : ECState) (seg : Seg)
    (hne : s.curves ≠ [])
    (hwf : s.normals.getLast? = some s.lastNormal)
    (ht : getAnalyticalTangent seg.bez 0 =
      getAnalyticalTangent (s.curves.getLast hne).bez 1)
    (hu : (0.9999 : ℝ) < (getAnalyticalTangent (s.curves.getLast hne).bez 1).lengthSq) :
    (addCurve s seg).normals[s.normals.length]? = s.normals.getLast? := by
  have hn_pos : 0 < s.curves.length := List.length_pos.mpr hne
  have hlookup : (s.curves ++ [seg])[s.curves.length]? = some seg :=
    List.getElem?_concat_length s.curves seg
  have hprev_lt : s.curves.length - 1 < s.curves.length := by omega
  have hprev : (s.curves ++ [seg])[s.curves.length - 1]? =
      some (s.curves.getLast hne) := by
    rw [List.getElem?_append_left hprev_lt, List.getElem?_eq_getElem hprev_lt]
    rw [List.getLast_eq_getElem s.curves hne]
  have harg : ((0 : ℕ) : ℝ) / (samplesPerCurve : ℝ) = 0 := by norm_num
  unfold addCurve computeFramesForCurve
  simp only [hlookup, hprev, Option.getD_some, hn_pos, if_pos, gt_iff_lt,
    recalcUValues_normals]
  rw [List.getElem?_append_right (le_refl s.normals.length), Nat.sub_self]
  show (ptfSamples seg.bez (samplesPerCurve + 1) 0 s.lastNormal
      (getAnalyticalTangent (s.curves.getLast hne).bez 1)).1[0]? = s.normals.getLast?
  rw [show ptfSamples seg.bez (samplesPerCurve + 1) 0 s.lastNormal
        (getAnalyticalTangent (s.curves.getLast hne).bez 1) =
      (parallelTransport s.lastNormal (getAnalyticalTangent (s.curves.getLast hne).bez 1)
          (getAnalyticalTangent seg.bez (((0 : ℕ) : ℝ) / (samplesPerCurve : ℝ))) ::
        (ptfSamples seg.bez samplesPerCurve 1
          (parallelTransport s.lastNormal (getAnalyticalTangent (s.curves.getLast hne).bez 1)
            (getAnalyticalTangent seg.bez (((0 : ℕ) : ℝ) / (samplesPerCurve : ℝ))))
          (getAnalyticalTangent seg.bez (((0 : ℕ) : ℝ) / (samplesPerCurve : ℝ)))).1,
        (ptfSamples seg.bez samplesPerCurve 1
          (parallelTransport s.lastNormal (getAnalyticalTangent (s.curves.getLast hne).bez 1)
            (getAnalyticalTangent seg.bez (((0 : ℕ) : ℝ) / (samplesPerCurve : ℝ))))
          (getAnalyticalTangent seg.bez (((0 : ℕ) : ℝ) / (samplesPerCurve : ℝ)))).2) from rfl]
  rw [List.getElem?_cons_zero, harg, ht, parallelTransport_self _ _ hu, hwf]

theorem c2_normal_continuity_witness :
    (addCurve exC2State exSeg2).normals[exC2State.normals.length]? =
      exC2State.normals.getLast? := by
  have hne : exC2State.curves ≠ [] := by simp [exC2State]
  have hsub1 : (exBez2.v1).sub exBez2.v0 = ⟨1, 0, 0⟩ := by
    ext <;> simp [exBez2] <;> norm_num
  have hsub2 : (exBez.v3).sub exBez.v2 = ⟨1, 0, 0⟩ := by
    ext <;> simp [exBez] <;> norm_num
  have hga0 : getAnalyticalTangent exBez2 0 = (⟨1, 0, 0⟩ : Vec3).normalize := by
    unfold getAnalyticalTangent
    rw [if_pos rfl, hsub1]
  have hga1 : getAnalyticalTangent exBez 1 = (⟨1, 0, 0⟩ : Vec3).normalize := by
    unfold getAnalyticalTangent
    rw [if_neg (by norm_num), if_pos rfl, hsub2]
  have hlsq : (⟨1, 0, 0⟩ : Vec3).normalize.lengthSq = 1 :=
    Vec3.lengthSq_normalize _ (by norm_num [Vec3.lengthSq])
  apply c2_normal_continuity exC2State exSeg2 hne
  · rfl
  · show getAnalyticalTangent exSeg2.bez 0 = getAnalyticalTangent exSeg.bez 1
    rw [show exSeg2.bez = exBez2 from rfl, show exSeg.bez = exBez from rfl, hga0, hga1]
  · show (0.9999 : ℝ) < (getAnalyticalTangent exSeg.bez 1).lengthSq
    rw [show exSeg.bez = exBez from rfl, hga1, hlsq]
    norm_num

end Snake
